import Mathlib

set_option maxHeartbeats 1000000

/-!
Verification of an exact-arithmetic LLL/BKZ lattice basis reduction program.

Integer vectors are `List ℤ`, rational vectors are `List ℚ`, and a basis is a
`List (List ℤ)` of rows.  The reduction loops of the program are unbounded
`while`/`loop` constructs; they are embedded below with an explicit iteration
budget `fuel`, where a `none` result means the budget ran out before the
loop's own exit condition fired.
-/

/-- `v1 - v2` elementwise (source `subtract_vec`); `List.zipWith` mirrors the
truncating `iter().zip()` of the source. -/
def subtract_vec (v1 v2 : List ℤ) : List ℤ := List.zipWith (fun a b => a - b) v1 v2

/-- `scalar * v` elementwise (source `scalar_mul`). -/
def scalar_mul (s : ℤ) (v : List ℤ) : List ℤ := v.map (fun x => s * x)

/-- Squared euclidean norm of a rational vector, `v.iter().map(|c| c.pow(2)).sum()`. -/
def normSq (v : List ℚ) : ℚ := (v.map (fun c => c ^ 2)).sum

/-- `⟨b_i, b*_j⟩` of an integer row against a rational row, as in the `num`
computation of `compute_gram_schmidt`. -/
def dotIQ (v : List ℤ) (w : List ℚ) : ℚ :=
  (List.zipWith (fun a c => (a : ℚ) * c) v w).sum

/-- The Gram-Schmidt coefficient `mu[i][j] = ⟨b_i, b*_j⟩ / ⟨b*_j, b*_j⟩`, with
the source's explicit fallback `mu[i][j] = 0` when the denominator is zero. -/
def muCoef (bi : List ℤ) (bsj : List ℚ) : ℚ :=
  if normSq bsj = 0 then 0 else dotIQ bi bsj / normSq bsj

/-- One row of Gram-Schmidt (the inner `for j in 0..i` loop of
`compute_gram_schmidt`): starting from the rational copy of `bi`, subtract
`mu[i][j] * b*_j` for each previously computed row `b*_j`, in order. -/
def gsVec (prev : List (List ℚ)) (bi : List ℤ) : List ℚ :=
  prev.foldl (fun acc bsj =>
      List.zipWith (fun a b => a - b) acc (bsj.map (fun c => muCoef bi bsj * c)))
    (bi.map (fun a => (a : ℚ)))

/-- The outer loop of `compute_gram_schmidt`, pushing `b*_i` row by row onto the
accumulator `b_star`. -/
def gsAux : List (List ℤ) → List (List ℚ) → List (List ℚ)
  | [], acc => acc
  | bi :: rest, acc => gsAux rest (acc ++ [gsVec acc bi])

/-- The list of Gram-Schmidt vectors `b*_0 .. b*_{n-1}` returned by the source's
`compute_gram_schmidt`. -/
def compute_gram_schmidt (b : List (List ℤ)) : List (List ℚ) := gsAux b []

/-- Row `j` of the Gram-Schmidt system of `b` (`b_star[j]` in the source). -/
def gsAt (b : List (List ℤ)) (j : ℕ) : List ℚ := (compute_gram_schmidt b).getD j []

/-- The coefficient table `mu` of `compute_gram_schmidt`: entries with `j < i`
hold `muCoef` of row `i` against `b*_j`; all other entries keep their initial
value `Rational::new() = 0`. -/
def muAt (b : List (List ℤ)) (i j : ℕ) : ℚ :=
  if j < i then muCoef (b.getD i []) (gsAt b j) else 0

/-- Rounding to the nearest integer with ties away from zero: the documented
behaviour of the `round` applied to `mu[k][j]` in the source (the numerator of
the rounded rational is then taken as the integer `q`). -/
def ratRound (q : ℚ) : ℤ := if 0 ≤ q then ⌊q + 1 / 2⌋ else ⌈q - 1 / 2⌉

/-- The scan `for j in (0..k).rev()` of the size-reduction loop: the first index
visited (i.e. the largest `j < k`) with `|mu[k][j]| > 1/2`, if any. -/
def findReduceIdx (b : List (List ℤ)) (k : ℕ) : Option ℕ :=
  (List.range k).reverse.find? (fun j => decide ((1 : ℚ) / 2 < |muAt b k j|))

/-- One size-reduction replacement `b[k] := b[k] - q * b[j]`, `q = round(mu[k][j])`. -/
def reduceAt (b : List (List ℤ)) (k j : ℕ) : List (List ℤ) :=
  b.set k (subtract_vec (b.getD k []) (scalar_mul (ratRound (muAt b k j)) (b.getD j [])))

/-- The size-reduction fixpoint (`'reduction_loop` in the source): repeat single
reductions, restarting the scan after each (the Gram-Schmidt data is recomputed
from the mutated basis), until a complete scan finds no `j` with
`|mu[k][j]| > 1/2`.  `fuel` bounds the number of iterations. -/
def sizeReduce : ℕ → List (List ℤ) → ℕ → Option (List (List ℤ))
  | 0, _, _ => none
  | fuel + 1, b, k =>
    match findReduceIdx b k with
    | none => some b
    | some j => sizeReduce fuel (reduceAt b k j) k

/-- `b.swap(i, j)` of the source. -/
def swapRows (b : List (List ℤ)) (i j : ℕ) : List (List ℤ) :=
  (b.set i (b.getD j [])).set j (b.getD i [])

/-- The `while k < n` loop of `lll`: size-reduce row `k`, then apply the Lovász
test — skipped (advancing `k`) when `‖b*_{k-1}‖² = 0` — advancing `k` on
success and swapping `b_k, b_{k-1}` followed by `k := max 1 (k-1)` on failure.
All Gram-Schmidt data is recomputed from the current basis, as in the source. -/
def lllLoop (delta : ℚ) : ℕ → List (List ℤ) → ℕ → Option (List (List ℤ))
  | 0, b, k => if b.length ≤ k then some b else none
  | fuel + 1, b, k =>
    if b.length ≤ k then some b
    else
      match sizeReduce (fuel + 1) b k with
      | none => none
      | some b' =>
        if normSq (gsAt b' (k - 1)) = 0 then
          lllLoop delta fuel b' (k + 1)
        else if normSq (gsAt b' k) ≥ (delta - muAt b' k (k - 1) ^ 2) * normSq (gsAt b' (k - 1)) then
          lllLoop delta fuel b' (k + 1)
        else
          lllLoop delta fuel (swapRows b' k (k - 1)) (max 1 (k - 1))

/-- The source's `lll` (which returns at once for `n = 0` and otherwise runs the
loop from `k = 1`), with an explicit iteration budget `fuel`. -/
def lll (fuel : ℕ) (delta : ℚ) (b : List (List ℤ)) : Option (List (List ℤ)) :=
  lllLoop delta fuel b 1

/-- One BKZ pass: `lll` on each window of `block_size` consecutive rows
(`for k in 0..=(n.saturating_sub(block_size))`), each window written back in
place, followed by one `lll` over the whole basis. -/
def bkzPass (fuel : ℕ) (delta : ℚ) (block_size : ℕ) (b : List (List ℤ)) :
    Option (List (List ℤ)) :=
  match (List.range (b.length - block_size + 1)).foldl
      (fun acc k => acc.bind (fun bb =>
        (lll fuel delta ((bb.drop k).take block_size)).map
          (fun blk => bb.take k ++ blk ++ bb.drop (k + block_size)))) (some b) with
  | none => none
  | some b1 => lll fuel delta b1

/-- The bounded main loop of `bkz`: repeat passes until a pass leaves the basis
unchanged, or until the source's iteration cap `max_iters = 2 * n` is hit.  The
countdown starts at `2 * n + 1` because the source breaks only once
`iter_count > max_iters`, i.e. after at most `2n + 1` passes. -/
def bkzGo (fuel : ℕ) (delta : ℚ) (block_size : ℕ) :
    ℕ → List (List ℤ) → Option (List (List ℤ))
  | 0, b => some b
  | c + 1, b =>
    match bkzPass fuel delta block_size b with
    | none => none
    | some b' => if b' = b then some b' else bkzGo fuel delta block_size c b'

/-- The source's `bkz` (early return for `n = 0`), with the inner `lll` calls
running on the iteration budget `fuel`. -/
def bkz (fuel : ℕ) (delta : ℚ) (block_size : ℕ) (b : List (List ℤ)) :
    Option (List (List ℤ)) :=
  if b.length = 0 then some b else bkzGo fuel delta block_size (2 * b.length + 1) b

/-- `i` consecutive BKZ passes, for stating the loop characterization. -/
def bkzPassIter (fuel : ℕ) (delta : ℚ) (block_size : ℕ) :
    ℕ → List (List ℤ) → Option (List (List ℤ))
  | 0, b => some b
  | i + 1, b => (bkzPass fuel delta block_size b).bind (bkzPassIter fuel delta block_size i)

/-- Elementwise integer vector addition (used to state lattice membership). -/
def addVec (v w : List ℤ) : List ℤ := List.zipWith (fun a b => a + b) v w

/-- The zero vector of dimension `m`. -/
def zeroVec (m : ℕ) : List ℤ := List.replicate m 0

/-- `Σ c_i * B_i`: the integer linear combination of the rows of `B` with
coefficients `c`. -/
def comboSum (m : ℕ) : List ℤ → List (List ℤ) → List ℤ
  | c :: cs, r :: rs => addVec (scalar_mul c r) (comboSum m cs rs)
  | _, _ => zeroVec m

/-- The lattice spanned by the basis `B` of `m`-dimensional rows: the set of
all integer linear combinations of the rows. -/
def latticeOf (m : ℕ) (B : List (List ℤ)) : Set (List ℤ) :=
  { v | ∃ c : List ℤ, c.length = B.length ∧ v = comboSum m c B }

/-- Well-formedness of a basis: every row has dimension `m`. -/
def WF (m : ℕ) (B : List (List ℤ)) : Prop := ∀ r ∈ B, r.length = m

/-! ### Structural lemmas about the Gram-Schmidt computation

`compute_gram_schmidt` builds its rows left to right, so row `j` depends only
on the first `j + 1` rows of the basis.  These prefix-stability lemmas carry
the LLL loop invariant across mutations of later rows. -/

theorem gsAux_append (xs ys : List (List ℤ)) (acc : List (List ℚ)) :
    gsAux (xs ++ ys) acc = gsAux ys (gsAux xs acc) := by
  induction xs generalizing acc with
  | nil => rfl
  | cons x xs ih => simp only [List.cons_append, gsAux]; exact ih _

theorem gsAux_extends (ys : List (List ℤ)) (acc : List (List ℚ)) :
    ∃ t, gsAux ys acc = acc ++ t := by
  induction ys generalizing acc with
  | nil => exact ⟨[], (List.append_nil acc).symm⟩
  | cons y ys ih =>
    obtain ⟨t, ht⟩ := ih (acc ++ [gsVec acc y])
    exact ⟨gsVec acc y :: t, by rw [gsAux, ht, List.append_assoc]; rfl⟩

theorem gsAux_length (ys : List (List ℤ)) (acc : List (List ℚ)) :
    (gsAux ys acc).length = acc.length + ys.length := by
  induction ys generalizing acc with
  | nil => simp [gsAux]
  | cons y ys ih => rw [gsAux, ih]; simp; omega

theorem compute_gram_schmidt_length (b : List (List ℤ)) :
    (compute_gram_schmidt b).length = b.length := by
  rw [compute_gram_schmidt, gsAux_length]; simp

theorem gs_take (b : List (List ℤ)) (t : ℕ) (ht : t ≤ b.length) :
    (compute_gram_schmidt b).take t = compute_gram_schmidt (b.take t) := by
  conv_lhs => rw [compute_gram_schmidt, ← List.take_append_drop t b, gsAux_append]
  obtain ⟨tt, htt⟩ := gsAux_extends (b.drop t) (gsAux (b.take t) [])
  rw [htt, List.take_left']
  · rfl
  · rw [gsAux_length]; simpa using ht

theorem getD_take {α : Type _} (l : List α) (t j : ℕ) (d : α) (hj : j < t) :
    (l.take t).getD j d = l.getD j d := by
  simp [List.getD_eq_getElem?_getD, List.getElem?_take_of_lt hj]

theorem getD_eq_of_take_eq {α : Type _} {l₁ l₂ : List α} {t : ℕ}
    (h : l₁.take t = l₂.take t) {i : ℕ} (hi : i < t) (d : α) :
    l₁.getD i d = l₂.getD i d := by
  rw [← getD_take l₁ t i d hi, ← getD_take l₂ t i d hi, h]

theorem gsAt_eq_of_take_eq {b₁ b₂ : List (List ℤ)} {t : ℕ}
    (h : b₁.take t = b₂.take t) (h₁ : t ≤ b₁.length) (h₂ : t ≤ b₂.length)
    {j : ℕ} (hj : j < t) : gsAt b₁ j = gsAt b₂ j := by
  unfold gsAt
  rw [← getD_take (compute_gram_schmidt b₁) t j [] hj,
    ← getD_take (compute_gram_schmidt b₂) t j [] hj, gs_take b₁ t h₁, gs_take b₂ t h₂, h]

theorem muAt_eq_of_take_eq {b₁ b₂ : List (List ℤ)} {t : ℕ}
    (h : b₁.take t = b₂.take t) (h₁ : t ≤ b₁.length) (h₂ : t ≤ b₂.length)
    {i : ℕ} (hi : i < t) (j : ℕ) : muAt b₁ i j = muAt b₂ i j := by
  unfold muAt
  by_cases hj : j < i
  · simp only [hj, if_true]
    rw [getD_eq_of_take_eq h hi, gsAt_eq_of_take_eq h h₁ h₂ (lt_trans hj hi)]
  · simp [hj]

theorem take_set_of_le {α : Type _} (l : List α) {i t : ℕ} (hti : t ≤ i) (a : α) :
    (l.set i a).take t = l.take t := by
  rw [List.set_take, List.set_eq_of_length_le]
  exact le_trans (List.length_take_le t l) hti

theorem normSq_nonneg (v : List ℚ) : 0 ≤ normSq v := by
  refine List.sum_nonneg fun x hx => ?_
  obtain ⟨c, _, rfl⟩ := List.mem_map.mp hx
  exact sq_nonneg c

/-! ### The LLL loop invariant -/

/-- Row `i` of `b` is size-reduced: every recomputed `mu[i][j]` with `j < i` is
at most `1/2` in absolute value. -/
def sizeReducedRow (b : List (List ℤ)) (i : ℕ) : Prop :=
  ∀ j < i, |muAt b i j| ≤ 1 / 2

/-- The Lovász condition at index `k` in the guarded form the loop establishes:
vacuous when `‖b*_{k-1}‖² = 0` (the branch the source skips). -/
def lovaszAt (delta : ℚ) (b : List (List ℤ)) (k : ℕ) : Prop :=
  0 < normSq (gsAt b (k - 1)) →
    normSq (gsAt b k) ≥ (delta - muAt b k (k - 1) ^ 2) * normSq (gsAt b (k - 1))

/-- Invariant of the `while k < n` loop: all rows strictly below the working
index are size-reduced and satisfy the (guarded) Lovász condition. -/
def LoopInv (delta : ℚ) (b : List (List ℤ)) (k : ℕ) : Prop :=
  ∀ i, 1 ≤ i → i < k → sizeReducedRow b i ∧ lovaszAt delta b i

theorem sizeReducedRow_of_take_eq {b₁ b₂ : List (List ℤ)} {t : ℕ}
    (h : b₁.take t = b₂.take t) (h₁ : t ≤ b₁.length) (h₂ : t ≤ b₂.length)
    {i : ℕ} (hi : i < t) : sizeReducedRow b₁ i → sizeReducedRow b₂ i := by
  intro hs j hj
  rw [← muAt_eq_of_take_eq h h₁ h₂ hi j]
  exact hs j hj

theorem lovaszAt_of_take_eq {delta : ℚ} {b₁ b₂ : List (List ℤ)} {t : ℕ}
    (h : b₁.take t = b₂.take t) (h₁ : t ≤ b₁.length) (h₂ : t ≤ b₂.length)
    {i : ℕ} (hi : i < t) : lovaszAt delta b₁ i → lovaszAt delta b₂ i := by
  unfold lovaszAt
  rw [gsAt_eq_of_take_eq h h₁ h₂ hi,
    gsAt_eq_of_take_eq h h₁ h₂ (lt_of_le_of_lt (Nat.sub_le i 1) hi),
    muAt_eq_of_take_eq h h₁ h₂ hi]
  exact id

theorem LoopInv_of_take_eq {delta : ℚ} {b₁ b₂ : List (List ℤ)} {t k : ℕ}
    (h : b₁.take t = b₂.take t) (h₁ : t ≤ b₁.length) (h₂ : t ≤ b₂.length)
    (hk : k ≤ t) : LoopInv delta b₁ k → LoopInv delta b₂ k := by
  intro hinv i h1 hik
  have hit : i < t := lt_of_lt_of_le hik hk
  exact ⟨sizeReducedRow_of_take_eq h h₁ h₂ hit (hinv i h1 hik).1,
    lovaszAt_of_take_eq h h₁ h₂ hit (hinv i h1 hik).2⟩

theorem findReduceIdx_none_iff {b : List (List ℤ)} {k : ℕ} :
    findReduceIdx b k = none ↔ ∀ j < k, |muAt b k j| ≤ 1 / 2 := by
  unfold findReduceIdx
  rw [List.find?_eq_none]
  constructor
  · intro h j hj
    have := h j (by simp [List.mem_reverse, List.mem_range, hj])
    simpa using this
  · intro h x hx
    simp only [List.mem_reverse, List.mem_range] at hx
    simp only [decide_eq_true_eq, not_lt]
    simpa using h x hx

theorem sizeReduce_spec :
    ∀ {fuel : ℕ} {b b' : List (List ℤ)} {k : ℕ}, sizeReduce fuel b k = some b' →
      b'.take k = b.take k ∧ b'.length = b.length ∧ findReduceIdx b' k = none := by
  intro fuel
  induction fuel with
  | zero => intro b b' k h; exact absurd h (by simp [sizeReduce])
  | succ fuel ih =>
    intro b b' k h
    rw [sizeReduce] at h
    cases hf : findReduceIdx b k with
    | none => rw [hf] at h; cases h; exact ⟨rfl, rfl, hf⟩
    | some j =>
      rw [hf] at h
      obtain ⟨ht, hl, hn⟩ := ih h
      refine ⟨?_, ?_, hn⟩
      · rw [ht]; exact take_set_of_le b (le_refl k) _
      · rw [hl]; simp [reduceAt]

theorem lllLoop_inv {delta : ℚ} :
    ∀ (fuel : ℕ) (b : List (List ℤ)) (k : ℕ) (r : List (List ℤ)), 1 ≤ k →
      LoopInv delta b k → lllLoop delta fuel b k = some r →
      ∀ i, 1 ≤ i → i < r.length → sizeReducedRow r i ∧ lovaszAt delta r i := by
  intro fuel
  induction fuel with
  | zero =>
    intro b k r hk hinv h
    rw [lllLoop] at h
    split at h
    case isTrue hle => cases h; exact fun i h1 hi => hinv i h1 (lt_of_lt_of_le hi hle)
    case isFalse => exact absurd h (by simp)
  | succ fuel ih =>
    intro b k r hk hinv h
    rw [lllLoop] at h
    split at h
    case isTrue hle => cases h; exact fun i h1 hi => hinv i h1 (lt_of_lt_of_le hi hle)
    case isFalse hlt =>
      split at h
      next hsr => exact absurd h (by simp)
      next b' hsr =>
        obtain ⟨htake, hlen, hfind⟩ := sizeReduce_spec hsr
        have hkb : k < b.length := not_le.mp hlt
        have hkb' : k < b'.length := hlen ▸ hkb
        have hinv' : LoopInv delta b' k :=
          LoopInv_of_take_eq htake.symm (le_of_lt hkb) (le_of_lt hkb') (le_refl k) hinv
        have hrowk : sizeReducedRow b' k := findReduceIdx_none_iff.mp hfind
        split at h
        next hz =>
          refine ih b' (k + 1) r (le_trans hk (Nat.le_succ k)) ?_ h
          intro i h1 hik
          rcases Nat.lt_succ_iff_lt_or_eq.mp hik with hik' | rfl
          · exact hinv' i h1 hik'
          · refine ⟨hrowk, fun hpos => ?_⟩
            rw [hz] at hpos
            exact absurd hpos (lt_irrefl 0)
        next hz =>
          split at h
          next hlov =>
            refine ih b' (k + 1) r (le_trans hk (Nat.le_succ k)) ?_ h
            intro i h1 hik
            rcases Nat.lt_succ_iff_lt_or_eq.mp hik with hik' | rfl
            · exact hinv' i h1 hik'
            · exact ⟨hrowk, fun _ => hlov⟩
          next hlov =>
            refine ih (swapRows b' k (k - 1)) (max 1 (k - 1)) r (le_max_left 1 _) ?_ h
            have hswaptake : (swapRows b' k (k - 1)).take (k - 1) = b'.take (k - 1) := by
              unfold swapRows
              rw [take_set_of_le _ (le_refl (k - 1)), take_set_of_le _ (Nat.sub_le k 1)]
            have hswaplen : (swapRows b' k (k - 1)).length = b'.length := by
              simp [swapRows]
            intro i h1 hik
            have hik' : i < k - 1 := by omega
            exact LoopInv_of_take_eq hswaptake.symm
              (le_trans (Nat.sub_le k 1) (le_of_lt hkb'))
              (hswaplen ▸ le_trans (Nat.sub_le k 1) (le_of_lt hkb'))
              (le_refl (k - 1))
              (fun i' h1' hik'' => hinv' i' h1' (lt_of_lt_of_le hik'' (Nat.sub_le k 1)))
              i h1 hik'

theorem lllLoop_fixed {delta : ℚ} {b : List (List ℤ)}
    (hred : ∀ i, 1 ≤ i → i < b.length → sizeReducedRow b i ∧ lovaszAt delta b i) :
    ∀ (g k : ℕ), 1 ≤ k → b.length ≤ g + k → lllLoop delta g b k = some b := by
  intro g
  induction g with
  | zero =>
    intro k hk hgk
    rw [lllLoop]
    simp only [Nat.zero_add] at hgk
    simp [hgk]
  | succ g ih =>
    intro k hk hgk
    rw [lllLoop]
    by_cases hle : b.length ≤ k
    · simp [hle]
    · have hkb : k < b.length := not_le.mp hle
      have hfind : findReduceIdx b k = none := findReduceIdx_none_iff.mpr ((hred k hk hkb).1)
      have hsr : sizeReduce (g + 1) b k = some b := by rw [sizeReduce, hfind]
      simp only [hle, if_false, hsr]
      by_cases hz : normSq (gsAt b (k - 1)) = 0
      · simp only [hz, if_true]
        exact ih (k + 1) (le_trans hk (Nat.le_succ k)) (by omega)
      · have hpos : 0 < normSq (gsAt b (k - 1)) :=
          lt_of_le_of_ne (normSq_nonneg _) (Ne.symm hz)
        have hlov := (hred k hk hkb).2 hpos
        simp only [hz, if_false, ge_iff_le, hlov, if_true]
        exact ih (k + 1) (le_trans hk (Nat.le_succ k)) (by omega)

theorem LoopInv_one {delta : ℚ} {b : List (List ℤ)} : LoopInv delta b 1 :=
  fun _ h1 hik => absurd (lt_of_le_of_lt h1 hik) (lt_irrefl 1)

/-- C2: for every well-formed basis and every delta in (1/4, 1), whenever `lll`
returns a basis `r`, the Gram-Schmidt mu coefficients recomputed on `r` satisfy
`|mu[i][j]| ≤ 1/2` for all `0 ≤ j < i < n`. -/
theorem lll_size_reduced {m fuel : ℕ} {delta : ℚ} {b r : List (List ℤ)}
    (hwf : WF m b) (hd1 : 1 / 4 < delta) (hd2 : delta < 1)
    (h : lll fuel delta b = some r) :
    ∀ i j, j < i → i < r.length → |muAt r i j| ≤ 1 / 2 := by
  intro i j hj hi
  have h' : lllLoop delta fuel b 1 = some r := h
  have h1 : 1 ≤ i := Nat.one_le_iff_ne_zero.mpr (by omega)
  exact (lllLoop_inv fuel b 1 r (le_refl 1) LoopInv_one h' i h1 hi).1 j hj

theorem lll_size_reduced_witness :
    WF 2 [[(4:ℤ),1],[1,3]] ∧ |muAt [[(1:ℤ),3],[3,-2]] 1 0| ≤ 1 / 2 :=
  ⟨by simp [WF], lll_size_reduced (m := 2) (by simp [WF]) (by norm_num) (by norm_num)
    (show lll 32 (3/4) [[(4:ℤ),1],[1,3]] = some [[(1:ℤ),3],[3,-2]] by
      with_unfolding_all decide)
    1 0 (by decide) (by decide)⟩

/-- C3: for every well-formed basis and every delta in (1/4, 1), whenever `lll`
returns a basis `r`, every index `k` with `1 ≤ k < n` whose predecessor has
`‖b*_{k-1}‖² > 0` in the recomputed Gram-Schmidt system satisfies the Lovász
inequality `‖b*_k‖² ≥ (delta − mu[k][k−1]²) · ‖b*_{k−1}‖²`. -/
theorem lll_lovasz {m fuel : ℕ} {delta : ℚ} {b r : List (List ℤ)}
    (hwf : WF m b) (hd1 : 1 / 4 < delta) (hd2 : delta < 1)
    (h : lll fuel delta b = some r) :
    ∀ k, 1 ≤ k → k < r.length → 0 < normSq (gsAt r (k - 1)) →
      normSq (gsAt r k) ≥ (delta - muAt r k (k - 1) ^ 2) * normSq (gsAt r (k - 1)) := by
  intro k h1 hk hpos
  have h' : lllLoop delta fuel b 1 = some r := h
  exact (lllLoop_inv fuel b 1 r (le_refl 1) LoopInv_one h' k h1 hk).2 hpos

theorem lll_lovasz_witness :
    0 < normSq (gsAt [[(1:ℤ),3],[3,-2]] 0) ∧
      normSq (gsAt [[(1:ℤ),3],[3,-2]] 1) ≥
        ((3:ℚ)/4 - muAt [[(1:ℤ),3],[3,-2]] 1 0 ^ 2) * normSq (gsAt [[(1:ℤ),3],[3,-2]] 0) :=
  ⟨by with_unfolding_all decide,
    lll_lovasz (m := 2) (by simp [WF]) (by norm_num) (by norm_num)
      (show lll 32 (3/4) [[(4:ℤ),1],[1,3]] = some [[(1:ℤ),3],[3,-2]] by
        with_unfolding_all decide)
      1 (le_refl 1) (by decide) (by with_unfolding_all decide)⟩

/-- C7: `lll` is idempotent — if `lll` with parameter `delta` returns `B'`, then
running `lll` again on `B'` with the same `delta` (and any sufficient iteration
budget) returns `B'` entrywise unchanged. -/
theorem lll_idempotent {fuel : ℕ} {delta : ℚ} {b r : List (List ℤ)}
    (hd1 : 1 / 4 < delta) (hd2 : delta < 1)
    (h : lll fuel delta b = some r) :
    ∀ g, r.length ≤ g + 1 → lll g delta r = some r := by
  intro g hg
  have h' : lllLoop delta fuel b 1 = some r := h
  exact lllLoop_fixed (lllLoop_inv fuel b 1 r (le_refl 1) LoopInv_one h') g 1 (le_refl 1) hg

theorem lll_idempotent_witness :
    lll 1 (3/4) [[(1:ℤ),3],[3,-2]] = some [[(1:ℤ),3],[3,-2]] :=
  lll_idempotent (by norm_num) (by norm_num)
    (show lll 32 (3/4) [[(4:ℤ),1],[1,3]] = some [[(1:ℤ),3],[3,-2]] by
      with_unfolding_all decide)
    1 (by decide)

/-! ### Integer vector algebra

The basis is only ever mutated by swapping two rows or by subtracting an
integer multiple of one row from another; the following algebra shows those
moves preserve the spanned lattice. -/

theorem length_scalar_mul (s : ℤ) (v : List ℤ) : (scalar_mul s v).length = v.length := by
  simp [scalar_mul]

theorem length_subtract_vec (u v : List ℤ) :
    (subtract_vec u v).length = min u.length v.length := by
  simp [subtract_vec]

theorem length_addVec (u v : List ℤ) : (addVec u v).length = min u.length v.length := by
  simp [addVec]

theorem length_zeroVec (m : ℕ) : (zeroVec m).length = m := by simp [zeroVec]

theorem addVec_comm (u v : List ℤ) : addVec u v = addVec v u := by
  unfold addVec
  induction u generalizing v with
  | nil => cases v <;> rfl
  | cons a u ih =>
    cases v with
    | nil => rfl
    | cons b v => simp only [List.zipWith_cons_cons]; rw [Int.add_comm, ih]

theorem addVec_assoc (u v w : List ℤ) : addVec (addVec u v) w = addVec u (addVec v w) := by
  unfold addVec
  induction u generalizing v w with
  | nil => cases v <;> cases w <;> rfl
  | cons a u ih =>
    cases v with
    | nil => rfl
    | cons b v =>
      cases w with
      | nil => rfl
      | cons c w => simp only [List.zipWith_cons_cons]; rw [Int.add_assoc, ih]

theorem addVec_interchange (a b c d : List ℤ) :
    addVec (addVec a b) (addVec c d) = addVec (addVec a c) (addVec b d) := by
  rw [addVec_assoc, ← addVec_assoc b c d, addVec_comm b c, addVec_assoc c b d, ← addVec_assoc]

theorem addVec_zeroVec_left {v : List ℤ} {m : ℕ} (h : v.length = m) :
    addVec (zeroVec m) v = v := by
  subst h
  unfold addVec zeroVec
  induction v with
  | nil => rfl
  | cons a v ih => simp only [List.length_cons, List.replicate, List.zipWith_cons_cons]; rw [Int.zero_add, ih]

theorem addVec_zeroVec_right {v : List ℤ} {m : ℕ} (h : v.length = m) :
    addVec v (zeroVec m) = v := by
  rw [addVec_comm]; exact addVec_zeroVec_left h

theorem scalar_mul_addVec (s : ℤ) (u v : List ℤ) :
    scalar_mul s (addVec u v) = addVec (scalar_mul s u) (scalar_mul s v) := by
  unfold scalar_mul addVec
  induction u generalizing v with
  | nil => cases v <;> rfl
  | cons a u ih =>
    cases v with
    | nil => rfl
    | cons b v => simp only [List.zipWith_cons_cons, List.map_cons]; rw [Int.mul_add, ih]

theorem scalar_mul_scalar_mul (s t : ℤ) (v : List ℤ) :
    scalar_mul s (scalar_mul t v) = scalar_mul (s * t) v := by
  unfold scalar_mul
  rw [List.map_map]
  congr 1
  funext x
  simp [Int.mul_assoc]

theorem one_scalar_mul (v : List ℤ) : scalar_mul 1 v = v := by
  unfold scalar_mul
  simpa using List.map_id v

theorem zero_scalar_mul (v : List ℤ) : scalar_mul 0 v = zeroVec v.length := by
  unfold scalar_mul zeroVec
  induction v with
  | nil => rfl
  | cons a v ih => simp only [List.map_cons, List.length_cons, List.replicate]; rw [Int.zero_mul, ih]

theorem add_scalar_mul (s t : ℤ) (v : List ℤ) :
    scalar_mul (s + t) v = addVec (scalar_mul s v) (scalar_mul t v) := by
  unfold scalar_mul addVec
  induction v with
  | nil => rfl
  | cons a v ih => simp only [List.map_cons, List.zipWith_cons_cons]; rw [Int.add_mul, ih]

theorem subtract_vec_eq_add_neg (u v : List ℤ) :
    subtract_vec u v = addVec u (scalar_mul (-1) v) := by
  unfold subtract_vec addVec scalar_mul
  induction u generalizing v with
  | nil => cases v <;> rfl
  | cons a u ih =>
    cases v with
    | nil => rfl
    | cons b v =>
      simp only [List.zipWith_cons_cons, List.map_cons]
      rw [ih]
      congr 1
      omega

theorem addVec_subtract_vec_cancel {u w : List ℤ} (h : u.length = w.length) :
    addVec (subtract_vec u w) w = u := by
  unfold subtract_vec addVec
  induction u generalizing w with
  | nil => cases w <;> rfl
  | cons a u ih =>
    cases w with
    | nil => simp at h
    | cons b w =>
      simp only [List.zipWith_cons_cons]
      rw [ih (by simpa using h)]
      congr 1
      omega

/-! ### Lattice membership and closure -/

theorem comboSum_length {m : ℕ} :
    ∀ (c : List ℤ) (B : List (List ℤ)), WF m B → (comboSum m c B).length = m := by
  intro c
  induction c with
  | nil => intro B _; cases B <;> simp [comboSum, length_zeroVec]
  | cons a cs ih =>
    intro B hwf
    cases B with
    | nil => simp [comboSum, length_zeroVec]
    | cons r rs =>
      have hr : r.length = m := hwf r (List.mem_cons_self r rs)
      have hrs : WF m rs := fun x hx => hwf x (List.mem_cons_of_mem r hx)
      rw [comboSum, length_addVec, length_scalar_mul, hr, ih rs hrs, min_self]

theorem comboSum_zero {m : ℕ} :
    ∀ (B : List (List ℤ)) (n : ℕ), WF m B → comboSum m (List.replicate n 0) B = zeroVec m := by
  intro B
  induction B with
  | nil => intro n _; cases n <;> rfl
  | cons r rs ih =>
    intro n hwf
    have hr : r.length = m := hwf r (List.mem_cons_self r rs)
    have hrs : WF m rs := fun x hx => hwf x (List.mem_cons_of_mem r hx)
    cases n with
    | zero => rfl
    | succ n =>
      rw [List.replicate, comboSum, ih n hrs, zero_scalar_mul, hr,
        addVec_zeroVec_left (length_zeroVec m)]

theorem comboSum_add {m : ℕ} :
    ∀ (c c' : List ℤ) (B : List (List ℤ)), c.length = B.length → c'.length = B.length →
      WF m B → addVec (comboSum m c B) (comboSum m c' B) =
        comboSum m (List.zipWith (fun a b => a + b) c c') B := by
  intro c c' B
  induction B generalizing c c' with
  | nil =>
    intro hc hc' _
    rw [List.length_nil, List.length_eq_zero] at hc hc'
    subst hc; subst hc'
    exact addVec_zeroVec_left (length_zeroVec m)
  | cons r rs ih =>
    intro hc hc' hwf
    have hr : r.length = m := hwf r (List.mem_cons_self r rs)
    have hrs : WF m rs := fun x hx => hwf x (List.mem_cons_of_mem r hx)
    cases c with
    | nil => simp at hc
    | cons a cs =>
      cases c' with
      | nil => simp at hc'
      | cons a' cs' =>
        simp only [comboSum, List.zipWith_cons_cons]
        rw [addVec_interchange, ← add_scalar_mul,
          ih cs cs' (by simpa using hc) (by simpa using hc') hrs]

theorem comboSum_smul {m : ℕ} (s : ℤ) :
    ∀ (c : List ℤ) (B : List (List ℤ)), WF m B →
      scalar_mul s (comboSum m c B) = comboSum m (c.map (fun x => s * x)) B := by
  intro c
  induction c with
  | nil =>
    intro B _
    cases B <;> · show scalar_mul s (zeroVec m) = zeroVec m
                  rw [zeroVec, scalar_mul, List.map_replicate, Int.mul_zero]
  | cons a cs ih =>
    intro B hwf
    cases B with
    | nil =>
      show scalar_mul s (zeroVec m) = zeroVec m
      rw [zeroVec, scalar_mul, List.map_replicate, Int.mul_zero]
    | cons r rs =>
      have hrs : WF m rs := fun x hx => hwf x (List.mem_cons_of_mem r hx)
      simp only [comboSum, List.map_cons]
      rw [scalar_mul_addVec, scalar_mul_scalar_mul, ih rs hrs]

theorem comboSum_mem_latticeOf {m : ℕ} {B₂ : List (List ℤ)} (hwf₂ : WF m B₂) :
    ∀ (c : List ℤ) (B₁ : List (List ℤ)), (∀ r ∈ B₁, r ∈ latticeOf m B₂) →
      comboSum m c B₁ ∈ latticeOf m B₂ := by
  have hzero : zeroVec m ∈ latticeOf m B₂ :=
    ⟨List.replicate B₂.length 0, by simp, (comboSum_zero B₂ B₂.length hwf₂).symm⟩
  have hadd : ∀ u w, u ∈ latticeOf m B₂ → w ∈ latticeOf m B₂ →
      addVec u w ∈ latticeOf m B₂ := by
    rintro u w ⟨c, hc, rfl⟩ ⟨c', hc', rfl⟩
    refine ⟨List.zipWith (fun a b => a + b) c c', by simp [hc, hc'], ?_⟩
    rw [comboSum_add c c' B₂ hc hc' hwf₂]
  have hsmul : ∀ s u, u ∈ latticeOf m B₂ → scalar_mul s u ∈ latticeOf m B₂ := by
    rintro s u ⟨c, hc, rfl⟩
    exact ⟨c.map (fun x => s * x), by simp [hc], comboSum_smul s c B₂ hwf₂⟩
  intro c
  induction c with
  | nil => intro B₁ _; cases B₁ <;> exact hzero
  | cons a cs ih =>
    intro B₁ hrows
    cases B₁ with
    | nil => exact hzero
    | cons r rs =>
      rw [comboSum]
      exact hadd _ _ (hsmul a r (hrows r (List.mem_cons_self r rs)))
        (ih rs fun x hx => hrows x (List.mem_cons_of_mem r hx))

theorem row_mem_latticeOf {m : ℕ} :
    ∀ {B : List (List ℤ)}, WF m B → ∀ {r : List ℤ}, r ∈ B → r ∈ latticeOf m B := by
  intro B
  induction B with
  | nil => intro _ r hr; exact absurd hr (List.not_mem_nil r)
  | cons r₀ rs ih =>
    intro hwf r hr
    have hr₀ : r₀.length = m := hwf r₀ (List.mem_cons_self r₀ rs)
    have hrs : WF m rs := fun x hx => hwf x (List.mem_cons_of_mem r₀ hx)
    rcases List.mem_cons.mp hr with rfl | hr'
    · refine ⟨1 :: List.replicate rs.length 0, by simp, ?_⟩
      rw [comboSum, comboSum_zero rs rs.length hrs, one_scalar_mul,
        addVec_zeroVec_right hr₀]
    · obtain ⟨c, hc, hceq⟩ := ih hrs hr'
      refine ⟨0 :: c, by simp [hc], ?_⟩
      rw [comboSum, zero_scalar_mul, hr₀,
        addVec_zeroVec_left (by rw [← hceq]; exact (hceq ▸ comboSum_length c rs hrs))]
      exact hceq

theorem latticeOf_eq_of_rows {m : ℕ} {B₁ B₂ : List (List ℤ)}
    (hwf₁ : WF m B₁) (hwf₂ : WF m B₂)
    (h₁ : ∀ r ∈ B₁, r ∈ latticeOf m B₂) (h₂ : ∀ r ∈ B₂, r ∈ latticeOf m B₁) :
    latticeOf m B₁ = latticeOf m B₂ := by
  apply Set.eq_of_subset_of_subset
  · rintro v ⟨c, _, rfl⟩
    exact comboSum_mem_latticeOf hwf₂ c B₁ h₁
  · rintro v ⟨c, _, rfl⟩
    exact comboSum_mem_latticeOf hwf₁ c B₂ h₂

theorem getD_mem {α : Type _} {l : List α} {i : ℕ} (h : i < l.length) (d : α) :
    l.getD i d ∈ l := by
  rw [List.getD_eq_getElem l d h]
  exact List.getElem_mem h

/-- Subtracting an integer multiple of row `j` from row `k` (`j ≠ k`) preserves
well-formedness and the spanned lattice. -/
theorem set_sub_lattice {m : ℕ} {b : List (List ℤ)} {k j : ℕ} (q : ℤ)
    (hwf : WF m b) (hk : k < b.length) (hj : j < b.length) (hkj : j ≠ k) :
    WF m (b.set k (subtract_vec (b.getD k []) (scalar_mul q (b.getD j [])))) ∧
      latticeOf m (b.set k (subtract_vec (b.getD k []) (scalar_mul q (b.getD j [])))) =
        latticeOf m b := by
  set v := subtract_vec (b.getD k []) (scalar_mul q (b.getD j [])) with hv
  have hbk : (b.getD k []).length = m := hwf _ (getD_mem hk [])
  have hbj : (b.getD j []).length = m := hwf _ (getD_mem hj [])
  have hvlen : v.length = m := by
    rw [hv, length_subtract_vec, length_scalar_mul, hbk, hbj, min_self]
  have hwf' : WF m (b.set k v) := by
    intro r hr
    rcases List.mem_or_eq_of_mem_set hr with hr' | rfl
    · exact hwf r hr'
    · exact hvlen
  refine ⟨hwf', latticeOf_eq_of_rows hwf' hwf ?_ ?_⟩
  · intro r hr
    rcases List.mem_or_eq_of_mem_set hr with hr' | rfl
    · exact row_mem_latticeOf hwf hr'
    · obtain ⟨c, hc, hceq⟩ := row_mem_latticeOf hwf (getD_mem hk ([] : List ℤ))
      obtain ⟨c', hc', hceq'⟩ := row_mem_latticeOf hwf (getD_mem hj ([] : List ℤ))
      rw [hv, subtract_vec_eq_add_neg]
      refine ⟨List.zipWith (fun a b => a + b) c (c'.map (fun x => (-q) * x)),
        by simp [hc, hc'], ?_⟩
      rw [← comboSum_add c _ b hc (by simp [hc']) hwf, ← comboSum_smul (-q) c' b hwf,
        ← hceq, ← hceq', scalar_mul_scalar_mul]
      norm_num
  · intro r hr
    obtain ⟨idx, hidx, rfl⟩ := List.getElem_of_mem hr
    by_cases hik : idx = k
    · subst hik
      have hbidx : b[idx] = b.getD idx [] := (List.getD_eq_getElem b [] hidx).symm
      rw [hbidx]
      have hsplit : b.getD idx [] = addVec v (scalar_mul q (b.getD j [])) := by
        rw [hv, addVec_subtract_vec_cancel (by rw [hbk, length_scalar_mul, hbj])]
      rw [hsplit]
      have hidx' : idx < (b.set idx v).length := by rw [List.length_set]; exact hidx
      have hvmem : v ∈ b.set idx v := by
        have hset : (b.set idx v)[idx] = v := List.getElem_set_self hidx'
        have hm := List.getElem_mem hidx'
        rwa [hset] at hm
      have hjmem : b.getD j [] ∈ b.set idx v := by
        have hj' : j < (b.set idx v).length := by rw [List.length_set]; exact hj
        have heq : (b.set idx v)[j] = b[j] := List.getElem_set_ne (by omega) hj'
        have : (b.set idx v).getD j [] = b.getD j [] := by
          rw [List.getD_eq_getElem _ [] hj', heq, List.getD_eq_getElem b [] hj]
        rw [← this]
        exact getD_mem hj' []
      obtain ⟨c, hc, hceq⟩ := row_mem_latticeOf hwf' hvmem
      obtain ⟨c', hc', hceq'⟩ := row_mem_latticeOf hwf' hjmem
      refine ⟨List.zipWith (fun a b => a + b) c (c'.map (fun x => q * x)),
        by simp [hc, hc'], ?_⟩
      rw [← comboSum_add c _ _ hc (by simp [hc']) hwf', ← comboSum_smul q c' _ hwf',
        ← hceq, ← hceq']
    · have hidx' : idx < (b.set k v).length := by rw [List.length_set]; exact hidx
      have heq : (b.set k v)[idx] = b[idx] := List.getElem_set_ne (by omega) hidx'
      rw [← heq]
      exact row_mem_latticeOf hwf' (List.getElem_mem hidx')

/-- Swapping two rows preserves well-formedness and the spanned lattice. -/
theorem swap_lattice {m : ℕ} {b : List (List ℤ)} {k j : ℕ}
    (hwf : WF m b) (hk : k < b.length) (hj : j < b.length) :
    WF m (swapRows b k j) ∧ latticeOf m (swapRows b k j) = latticeOf m b := by
  have hbk : b.getD k [] ∈ b := getD_mem hk []
  have hbj : b.getD j [] ∈ b := getD_mem hj []
  have hwf' : WF m (swapRows b k j) := by
    intro r hr
    unfold swapRows at hr
    rcases List.mem_or_eq_of_mem_set hr with hr' | rfl
    · rcases List.mem_or_eq_of_mem_set hr' with hr'' | rfl
      · exact hwf r hr''
      · exact hwf _ hbj
    · exact hwf _ hbk
  have hlen : (swapRows b k j).length = b.length := by simp [swapRows]
  refine ⟨hwf', latticeOf_eq_of_rows hwf' hwf ?_ ?_⟩
  · intro r hr
    unfold swapRows at hr
    rcases List.mem_or_eq_of_mem_set hr with hr' | rfl
    · rcases List.mem_or_eq_of_mem_set hr' with hr'' | rfl
      · exact row_mem_latticeOf hwf hr''
      · exact row_mem_latticeOf hwf hbj
    · exact row_mem_latticeOf hwf hbk
  · intro r hr
    obtain ⟨idx, hidx, rfl⟩ := List.getElem_of_mem hr
    by_cases hik : idx = k
    · subst hik
      have hj' : j < (swapRows b idx j).length := by rw [hlen]; exact hj
      have heq : (swapRows b idx j)[j] = b[idx] := by
        unfold swapRows
        rw [List.getElem_set_self (by simpa [List.length_set] using hj)]
        exact List.getD_eq_getElem b [] hidx
      rw [← heq]
      exact row_mem_latticeOf hwf' (List.getElem_mem hj')
    · by_cases hij : idx = j
      · subst hij
        have hk' : k < (swapRows b k idx).length := by rw [hlen]; exact hk
        have heq : (swapRows b k idx)[k] = b[idx] := by
          unfold swapRows
          rw [List.getElem_set_ne (show idx ≠ k by omega)
              (by simpa [List.length_set] using hk),
            List.getElem_set_self (by simpa [List.length_set] using hk)]
          exact List.getD_eq_getElem b [] hidx
        rw [← heq]
        exact row_mem_latticeOf hwf' (List.getElem_mem hk')
      · have hidx' : idx < (swapRows b k j).length := by rw [hlen]; exact hidx
        have heq : (swapRows b k j)[idx] = b[idx] := by
          unfold swapRows
          rw [List.getElem_set_ne (show j ≠ idx by omega)
              (by simpa [List.length_set] using hidx),
            List.getElem_set_ne (show k ≠ idx by omega)
              (by simpa [List.length_set] using hidx)]
        rw [← heq]
        exact row_mem_latticeOf hwf' (List.getElem_mem hidx')

theorem findReduceIdx_lt {b : List (List ℤ)} {k j : ℕ}
    (h : findReduceIdx b k = some j) : j < k := by
  have hmem := List.mem_of_find?_eq_some h
  simpa [List.mem_reverse, List.mem_range] using hmem

theorem sizeReduce_lattice {m : ℕ} :
    ∀ {fuel : ℕ} {b b' : List (List ℤ)} {k : ℕ}, WF m b → k < b.length →
      sizeReduce fuel b k = some b' →
      WF m b' ∧ b'.length = b.length ∧ latticeOf m b' = latticeOf m b := by
  intro fuel
  induction fuel with
  | zero => intro b b' k _ _ h; exact absurd h (by simp [sizeReduce])
  | succ fuel ih =>
    intro b b' k hwf hk h
    rw [sizeReduce] at h
    cases hf : findReduceIdx b k with
    | none => rw [hf] at h; cases h; exact ⟨hwf, rfl, rfl⟩
    | some j =>
      rw [hf] at h
      have hjk : j < k := findReduceIdx_lt hf
      have hjb : j < b.length := lt_trans hjk hk
      obtain ⟨hwf2, hlat2⟩ :=
        set_sub_lattice (m := m) (ratRound (muAt b k j)) hwf hk hjb (by omega)
      have hlen2 : (reduceAt b k j).length = b.length := by simp [reduceAt]
      obtain ⟨hwf3, hlen3, hlat3⟩ := ih (b := reduceAt b k j) hwf2 (by omega) h
      exact ⟨hwf3, hlen3.trans hlen2, hlat3.trans hlat2⟩

theorem lllLoop_lattice {m : ℕ} {delta : ℚ} :
    ∀ (fuel : ℕ) (b : List (List ℤ)) (k : ℕ) (r : List (List ℤ)), 1 ≤ k → WF m b →
      lllLoop delta fuel b k = some r →
      WF m r ∧ r.length = b.length ∧ latticeOf m r = latticeOf m b := by
  intro fuel
  induction fuel with
  | zero =>
    intro b k r _ hwf h
    rw [lllLoop] at h
    split at h
    · cases h; exact ⟨hwf, rfl, rfl⟩
    · exact absurd h (by simp)
  | succ fuel ih =>
    intro b k r hk hwf h
    rw [lllLoop] at h
    split at h
    case isTrue => cases h; exact ⟨hwf, rfl, rfl⟩
    case isFalse hlt =>
      split at h
      next hsr => exact absurd h (by simp)
      next b' hsr =>
        have hkb : k < b.length := not_le.mp hlt
        obtain ⟨hwf', hlen', hlat'⟩ := sizeReduce_lattice hwf hkb hsr
        have hkb' : k < b'.length := by omega
        split at h
        next =>
          obtain ⟨hw, hl, hla⟩ := ih b' (k + 1) r (by omega) hwf' h
          exact ⟨hw, hl.trans hlen', hla.trans hlat'⟩
        next =>
          split at h
          next =>
            obtain ⟨hw, hl, hla⟩ := ih b' (k + 1) r (by omega) hwf' h
            exact ⟨hw, hl.trans hlen', hla.trans hlat'⟩
          next =>
            have hk1b' : k - 1 < b'.length := by omega
            obtain ⟨hwfs, hlats⟩ := swap_lattice (k := k) (j := k - 1) hwf' hkb' hk1b'
            have hlens : (swapRows b' k (k - 1)).length = b'.length := by simp [swapRows]
            obtain ⟨hw, hl, hla⟩ :=
              ih (swapRows b' k (k - 1)) (max 1 (k - 1)) r (le_max_left 1 _) hwfs h
            exact ⟨hw, (hl.trans hlens).trans hlen', (hla.trans hlats).trans hlat'⟩

/-- `lll` preserves well-formedness, the number of rows, and the spanned
lattice whenever it returns. -/
theorem lll_lattice {m fuel : ℕ} {delta : ℚ} {b r : List (List ℤ)}
    (hwf : WF m b) (h : lll fuel delta b = some r) :
    WF m r ∧ r.length = b.length ∧ latticeOf m r = latticeOf m b :=
  lllLoop_lattice fuel b 1 r (le_refl 1) hwf h

theorem latticeOf_subset {m : ℕ} {B₁ B₂ : List (List ℤ)} (hwf₂ : WF m B₂)
    (h : ∀ r ∈ B₁, r ∈ latticeOf m B₂) : latticeOf m B₁ ⊆ latticeOf m B₂ := by
  rintro v ⟨c, _, rfl⟩
  exact comboSum_mem_latticeOf hwf₂ c B₁ h

/-- Writing a lattice-equivalent block back into a window of the basis
preserves well-formedness and the spanned lattice. -/
theorem slice_lattice {m : ℕ} {b blk' : List (List ℤ)} {k bs : ℕ}
    (hwf : WF m b) (hkbs : k + bs ≤ b.length) (hwfblk : WF m blk')
    (hlat : latticeOf m blk' = latticeOf m ((b.drop k).take bs)) :
    WF m (b.take k ++ blk' ++ b.drop (k + bs)) ∧
      latticeOf m (b.take k ++ blk' ++ b.drop (k + bs)) = latticeOf m b := by
  set blk := (b.drop k).take bs with hblk
  have hwfblk0 : WF m blk := fun r hr =>
    hwf r (List.mem_of_mem_drop (List.mem_of_mem_take hr))
  have hdecomp : b = b.take k ++ (blk ++ b.drop (k + bs)) := by
    rw [hblk]
    conv_lhs => rw [← List.take_append_drop k b]
    congr 1
    conv_lhs => rw [← List.take_append_drop bs (b.drop k)]
    congr 1
    rw [List.drop_drop]
  have hwf' : WF m (b.take k ++ blk' ++ b.drop (k + bs)) := by
    intro r hr
    rcases List.mem_append.mp hr with hr' | hr'
    · rcases List.mem_append.mp hr' with hr'' | hr''
      · exact hwf r (List.mem_of_mem_take hr'')
      · exact hwfblk r hr''
    · exact hwf r (List.mem_of_mem_drop hr')
  refine ⟨hwf', latticeOf_eq_of_rows hwf' hwf ?_ ?_⟩
  · intro r hr
    rcases List.mem_append.mp hr with hr' | hr'
    · rcases List.mem_append.mp hr' with hr'' | hr''
      · exact row_mem_latticeOf hwf (List.mem_of_mem_take hr'')
      · have hrm : r ∈ latticeOf m blk := hlat ▸ row_mem_latticeOf hwfblk hr''
        exact latticeOf_subset hwf (fun x hx => row_mem_latticeOf hwf
          (List.mem_of_mem_drop (List.mem_of_mem_take hx))) hrm
    · exact row_mem_latticeOf hwf (List.mem_of_mem_drop hr')
  · intro r hr
    rw [hdecomp] at hr
    rcases List.mem_append.mp hr with hr' | hr'
    · exact row_mem_latticeOf hwf' (List.mem_append.mpr (Or.inl (List.mem_append.mpr (Or.inl hr'))))
    · rcases List.mem_append.mp hr' with hr'' | hr''
      · have hrm : r ∈ latticeOf m blk' := hlat.symm ▸ row_mem_latticeOf hwfblk0 hr''
        exact latticeOf_subset hwf' (fun x hx => row_mem_latticeOf hwf'
          (List.mem_append.mpr (Or.inl (List.mem_append.mpr (Or.inr hx))))) hrm
      · exact row_mem_latticeOf hwf' (List.mem_append.mpr (Or.inr hr''))

theorem bkzFold_none {fuel : ℕ} {delta : ℚ} {bs : ℕ} (ks : List ℕ) :
    ks.foldl (fun acc k => acc.bind (fun bb =>
      (lll fuel delta ((bb.drop k).take bs)).map
        (fun blk => bb.take k ++ blk ++ bb.drop (k + bs)))) none = none := by
  induction ks with
  | nil => rfl
  | cons kk ks ih => simpa using ih

theorem bkzFold_lattice {m fuel : ℕ} {delta : ℚ} {bs : ℕ} :
    ∀ (ks : List ℕ) (b0 bb : List (List ℤ)), WF m b0 →
      (∀ kk ∈ ks, kk + bs ≤ b0.length) →
      ks.foldl (fun acc k => acc.bind (fun bb =>
        (lll fuel delta ((bb.drop k).take bs)).map
          (fun blk => bb.take k ++ blk ++ bb.drop (k + bs)))) (some b0) = some bb →
      WF m bb ∧ bb.length = b0.length ∧ latticeOf m bb = latticeOf m b0 := by
  intro ks
  induction ks with
  | nil => intro b0 bb hwf _ h; cases h; exact ⟨hwf, rfl, rfl⟩
  | cons kk ks ih =>
    intro b0 bb hwf hks h
    rw [List.foldl_cons] at h
    cases hl : lll fuel delta ((b0.drop kk).take bs) with
    | none =>
      rw [show ((some b0).bind (fun bb =>
          (lll fuel delta ((bb.drop kk).take bs)).map
            (fun blk => bb.take kk ++ blk ++ bb.drop (kk + bs)))) = none by
        simp [hl]] at h
      rw [bkzFold_none] at h
      exact absurd h (by simp)
    | some blk' =>
      have hkk : kk + bs ≤ b0.length := hks kk (List.mem_cons_self kk ks)
      have hwfblk0 : WF m ((b0.drop kk).take bs) := fun r hr =>
        hwf r (List.mem_of_mem_drop (List.mem_of_mem_take hr))
      obtain ⟨hwfblk, hlenblk, hlatblk⟩ := lll_lattice hwfblk0 hl
      obtain ⟨hwfstep, hlatstep⟩ := slice_lattice hwf hkk hwfblk hlatblk
      have hlenstep : (b0.take kk ++ blk' ++ b0.drop (kk + bs)).length = b0.length := by
        have h1 : ((b0.drop kk).take bs).length = bs := by
          rw [List.length_take, List.length_drop]; omega
        simp [List.length_append, List.length_take, List.length_drop, hlenblk, h1]
        omega
      rw [show ((some b0).bind (fun bb =>
          (lll fuel delta ((bb.drop kk).take bs)).map
            (fun blk => bb.take kk ++ blk ++ bb.drop (kk + bs)))) =
          some (b0.take kk ++ blk' ++ b0.drop (kk + bs)) by simp [hl]] at h
      obtain ⟨hw, hlen, hlat⟩ := ih _ bb hwfstep
        (fun x hx => by rw [hlenstep]; exact hks x (List.mem_cons_of_mem kk hx)) h
      exact ⟨hw, hlen.trans hlenstep, hlat.trans hlatstep⟩

theorem bkzPass_lattice {m fuel : ℕ} {delta : ℚ} {bs : ℕ} {b bb : List (List ℤ)}
    (hwf : WF m b) (hbs : bs ≤ b.length) (h : bkzPass fuel delta bs b = some bb) :
    WF m bb ∧ bb.length = b.length ∧ latticeOf m bb = latticeOf m b := by
  rw [bkzPass] at h
  split at h
  next => exact absurd h (by simp)
  next b1 hfold =>
    obtain ⟨hw1, hlen1, hlat1⟩ := bkzFold_lattice (List.range (b.length - bs + 1)) b b1 hwf
      (fun kk hk => by rw [List.mem_range] at hk; omega) hfold
    obtain ⟨hw2, hlen2, hlat2⟩ := lll_lattice hw1 h
    exact ⟨hw2, hlen2.trans hlen1, hlat2.trans hlat1⟩

theorem bkzGo_lattice {m fuel : ℕ} {delta : ℚ} {bs : ℕ} :
    ∀ (c : ℕ) (b r : List (List ℤ)), WF m b → bs ≤ b.length →
      bkzGo fuel delta bs c b = some r →
      WF m r ∧ r.length = b.length ∧ latticeOf m r = latticeOf m b := by
  intro c
  induction c with
  | zero => intro b r hwf _ h; cases h; exact ⟨hwf, rfl, rfl⟩
  | succ c ih =>
    intro b r hwf hbs h
    rw [bkzGo] at h
    split at h
    next => exact absurd h (by simp)
    next b' hpass =>
      obtain ⟨hw', hlen', hlat'⟩ := bkzPass_lattice hwf hbs hpass
      split at h
      next => cases h; exact ⟨hw', hlen', hlat'⟩
      next =>
        obtain ⟨hw, hlen, hlat⟩ := ih b' r hw' (by omega) h
        exact ⟨hw, hlen.trans hlen', hlat.trans hlat'⟩

/-- C4: for every well-formed integer basis and delta in (1/4, 1) (and, for
`bkz`, every block size in [2, n]), whenever `lll` or `bkz` returns, the output
spans the same lattice as the input: the basis is only ever mutated by row
swaps and by subtracting integer multiples of one row from another, both of
which are unimodular changes of basis. -/
theorem lattice_equivalence :
    (∀ (m fuel : ℕ) (delta : ℚ) (b r : List (List ℤ)), 1 / 4 < delta → delta < 1 →
      WF m b → lll fuel delta b = some r → latticeOf m r = latticeOf m b) ∧
    (∀ (m fuel bs : ℕ) (delta : ℚ) (b r : List (List ℤ)), 1 / 4 < delta → delta < 1 →
      2 ≤ bs → bs ≤ b.length → WF m b → bkz fuel delta bs b = some r →
      latticeOf m r = latticeOf m b) := by
  constructor
  · intro m fuel delta b r _ _ hwf h
    exact (lll_lattice hwf h).2.2
  · intro m fuel bs delta b r _ _ _ hbs hwf h
    rw [bkz] at h
    split at h
    next => cases h; rfl
    next => exact (bkzGo_lattice (2 * b.length + 1) b r hwf hbs h).2.2

theorem lattice_equivalence_witness :
    latticeOf 2 [[(1:ℤ),3],[3,-2]] = latticeOf 2 [[(4:ℤ),1],[1,3]] :=
  lattice_equivalence.1 2 32 (3/4) [[(4:ℤ),1],[1,3]] [[(1:ℤ),3],[3,-2]]
    (by norm_num) (by norm_num) (by simp [WF])
    (by with_unfolding_all decide)

/-- C5: division by zero never happens in Gram-Schmidt — a zero `‖b*_j‖²` makes
`mu[i][j] = 0` by the explicit fallback; the `lll` loop skips the Lovász test
and advances `k` when `‖b*_{k-1}‖² = 0`; reduction on rank-deficient bases
(whenever it returns, and concretely on a basis with two identical rows)
yields a basis spanning the same lattice. -/
theorem degeneracy_policy :
    (∀ (b : List (List ℤ)) (i j : ℕ), normSq (gsAt b j) = 0 → muAt b i j = 0) ∧
    (∀ (delta : ℚ) (fuel : ℕ) (b b' : List (List ℤ)) (k : ℕ), ¬ b.length ≤ k →
      sizeReduce (fuel + 1) b k = some b' → normSq (gsAt b' (k - 1)) = 0 →
      lllLoop delta (fuel + 1) b k = lllLoop delta fuel b' (k + 1)) ∧
    (∀ (m fuel : ℕ) (delta : ℚ) (b r : List (List ℤ)), WF m b →
      lll fuel delta b = some r → latticeOf m r = latticeOf m b) ∧
    (lll 32 (3/4) [[(1:ℤ),2],[1,2],[0,1]] = some [[(0:ℤ),0],[0,1],[1,0]] ∧
      latticeOf 2 [[(0:ℤ),0],[0,1],[1,0]] = latticeOf 2 [[(1:ℤ),2],[1,2],[0,1]]) := by
  refine ⟨?_, ?_, ?_, ?_, ?_⟩
  · intro b i j h
    unfold muAt muCoef
    simp [h]
  · intro delta fuel b b' k hk hsr hz
    rw [lllLoop, if_neg hk, hsr]
    simp [hz]
  · intro m fuel delta b r hwf h
    exact (lll_lattice hwf h).2.2
  · with_unfolding_all decide
  · exact (lll_lattice (m := 2) (by simp [WF])
      (show lll 32 (3/4) [[(1:ℤ),2],[1,2],[0,1]] = some [[(0:ℤ),0],[0,1],[1,0]] by
        with_unfolding_all decide)).2.2

theorem degeneracy_policy_witness :
    normSq (gsAt [[(0:ℤ),0],[1,1]] 0) = 0 ∧ muAt [[(0:ℤ),0],[1,1]] 1 0 = 0 :=
  ⟨by with_unfolding_all decide,
    degeneracy_policy.1 [[(0:ℤ),0],[1,1]] 1 0 (by with_unfolding_all decide)⟩

theorem bkzGo_runs {fuel : ℕ} {delta : ℚ} {bs : ℕ} :
    ∀ (c : ℕ) (b r : List (List ℤ)), 1 ≤ c → bkzGo fuel delta bs c b = some r →
      ∃ i, 1 ≤ i ∧ i ≤ c ∧ bkzPassIter fuel delta bs i b = some r ∧
        (bkzPass fuel delta bs r = some r ∨ i = c) := by
  intro c
  induction c with
  | zero => intro b r hc; omega
  | succ c ih =>
    intro b r _ h
    rw [bkzGo] at h
    split at h
    next => exact absurd h (by simp)
    next b' hpass =>
      split at h
      next heq =>
        cases h
        refine ⟨1, le_refl 1, by omega, ?_, Or.inl ?_⟩
        · rw [bkzPassIter, hpass]
          simp [bkzPassIter]
        · rw [heq] at hpass ⊢
          rw [hpass]
      next hne =>
        cases c with
        | zero =>
          rw [bkzGo] at h
          cases h
          refine ⟨1, le_refl 1, le_refl 1, ?_, Or.inr rfl⟩
          rw [bkzPassIter, hpass]
          simp [bkzPassIter]
        | succ c' =>
          obtain ⟨i, h1, hic, hiter, hd⟩ := ih b' r (by omega) h
          refine ⟨i + 1, by omega, by omega, ?_, ?_⟩
          · rw [bkzPassIter, hpass]
            simpa using hiter
          · rcases hd with hd | hd
            · exact Or.inl hd
            · exact Or.inr (by omega)

/-- C6: for a non-empty basis, delta in (1/4, 1) and a block size in [2, n],
`bkz` performs between 1 and `2n + 1` passes (each pass being window LLL runs
followed by a full LLL, as defined by `bkzPass`), stopping either because a
pass left the basis unchanged or because the iteration cap `2n` was exceeded;
in the cap case no error is raised and the current basis is returned. -/
theorem bkz_loop_structure {fuel bs : ℕ} {delta : ℚ} {b r : List (List ℤ)}
    (hne : b ≠ []) (hd1 : 1 / 4 < delta) (hd2 : delta < 1) (h2 : 2 ≤ bs)
    (hbs : bs ≤ b.length) (h : bkz fuel delta bs b = some r) :
    ∃ i, 1 ≤ i ∧ i ≤ 2 * b.length + 1 ∧ bkzPassIter fuel delta bs i b = some r ∧
      (bkzPass fuel delta bs r = some r ∨ i = 2 * b.length + 1) := by
  rw [bkz, if_neg (fun h0 => hne (List.length_eq_zero.mp h0))] at h
  exact bkzGo_runs (2 * b.length + 1) b r (by omega) h

theorem bkz_loop_structure_witness :
    ∃ i, 1 ≤ i ∧ i ≤ 2 * 2 + 1 ∧
      bkzPassIter 32 (3/4) 2 i [[(4:ℤ),1],[1,3]] = some [[(1:ℤ),3],[3,-2]] ∧
      (bkzPass 32 (3/4) 2 [[(1:ℤ),3],[3,-2]] = some [[(1:ℤ),3],[3,-2]] ∨ i = 2 * 2 + 1) := by
  have hrun : bkz 32 (3/4) 2 [[(4:ℤ),1],[1,3]] = some [[(1:ℤ),3],[3,-2]] := by
    with_unfolding_all decide
  have h := bkz_loop_structure (by simp) (by norm_num) (by norm_num) (le_refl 2) (by simp) hrun
  simpa using h

/-- C8: the rounding in size-reduction is round-half-to-nearest with ties away
from zero — `ratRound q` is a nearest integer to `q`, a positive half
`z + 1/2` rounds up to `z + 1`, a negative half `z - 1/2` rounds down to
`z - 1` (so `3/2 ↦ 2` and `-3/2 ↦ -2`); a reduction step is taken exactly when
`|mu[k][j]| > 1/2` and replaces `b_k` by `b_k − q·b_j` in exact integer vector
arithmetic. -/
theorem rounding_policy :
    (∀ q : ℚ, |q - (ratRound q : ℚ)| ≤ 1 / 2) ∧
    (∀ z : ℤ, 0 < (z : ℚ) + 1 / 2 → ratRound ((z : ℚ) + 1 / 2) = z + 1) ∧
    (∀ z : ℤ, (z : ℚ) - 1 / 2 < 0 → ratRound ((z : ℚ) - 1 / 2) = z - 1) ∧
    (ratRound (3 / 2) = 2 ∧ ratRound (-(3 / 2)) = -2) ∧
    (∀ (b : List (List ℤ)) (k j : ℕ), findReduceIdx b k = some j →
      1 / 2 < |muAt b k j|) ∧
    (∀ (b : List (List ℤ)) (k : ℕ), findReduceIdx b k = none →
      ∀ j < k, |muAt b k j| ≤ 1 / 2) ∧
    (∀ (fuel : ℕ) (b : List (List ℤ)) (k j : ℕ), findReduceIdx b k = some j →
      sizeReduce (fuel + 1) b k =
        sizeReduce fuel
          (b.set k (subtract_vec (b.getD k [])
            (scalar_mul (ratRound (muAt b k j)) (b.getD j [])))) k) := by
  have hround2 : ∀ z : ℤ, 0 < (z : ℚ) + 1 / 2 → ratRound ((z : ℚ) + 1 / 2) = z + 1 := by
    intro z hz
    rw [ratRound, if_pos (le_of_lt hz)]
    have : (z : ℚ) + 1 / 2 + 1 / 2 = ((z + 1 : ℤ) : ℚ) := by push_cast; ring
    rw [this, Int.floor_intCast]
  refine ⟨?_, hround2, ?_, ?_, ?_, ?_, ?_⟩
  · intro q
    rw [ratRound]
    split
    next =>
      have h1 : (⌊q + 1 / 2⌋ : ℚ) ≤ q + 1 / 2 := Int.floor_le _
      have h2 : q + 1 / 2 - 1 < (⌊q + 1 / 2⌋ : ℚ) := Int.sub_one_lt_floor _
      rw [abs_le]
      constructor <;> linarith
    next =>
      have h1 : q - 1 / 2 ≤ (⌈q - 1 / 2⌉ : ℚ) := Int.le_ceil _
      have h2 : (⌈q - 1 / 2⌉ : ℚ) < q - 1 / 2 + 1 := Int.ceil_lt_add_one _
      rw [abs_le]
      constructor <;> linarith
  · intro z hz
    rw [ratRound, if_neg (not_le.mpr hz)]
    have : (z : ℚ) - 1 / 2 - 1 / 2 = ((z - 1 : ℤ) : ℚ) := by push_cast; ring
    rw [this, Int.ceil_intCast]
  · constructor
    · have h := hround2 1 (by norm_num)
      have he : ((1 : ℤ) : ℚ) + 1 / 2 = 3 / 2 := by norm_num
      rw [he] at h
      exact h
    · rw [ratRound, if_neg (by norm_num)]
      have he : -(3 / 2) - 1 / 2 = ((-2 : ℤ) : ℚ) := by norm_num
      rw [he, Int.ceil_intCast]
  · intro b k j h
    simpa using List.find?_some h
  · intro b k h
    exact findReduceIdx_none_iff.mp h
  · intro fuel b k j h
    rw [sizeReduce, h]
    simp [reduceAt]

theorem rounding_policy_witness :
    0 < ((1 : ℤ) : ℚ) + 1 / 2 ∧ ratRound (((1 : ℤ) : ℚ) + 1 / 2) = 1 + 1 :=
  ⟨by norm_num, rounding_policy.2.1 1 (by norm_num)⟩

/-! ### The external string encoding

Strings are modelled as `List Char`.  `format_basis_as_json` and
`load_basis_from_string` mirror the source's formatter and parser; the parse
failures that `panic!`/`expect` in the source surface as `none` here. -/

/-- `Vec::join(",")` of the source: chunks separated by a separator. -/
def joinSep (sep : List Char) : List (List Char) → List Char
  | [] => []
  | [x] => x
  | x :: xs => x ++ sep ++ joinSep sep xs

/-- Decimal digit characters of a natural number, most significant first
(the rendering used by `format!("{}", num)`). -/
def natDigits (n : ℕ) : List Char :=
  if n = 0 then ['0'] else ((Nat.digits 10 n).map Nat.digitChar).reverse

/-- Decimal rendering of an integer, with a leading `-` when negative. -/
def formatInt (z : ℤ) : List Char :=
  if z < 0 then '-' :: natDigits z.natAbs else natDigits z.natAbs

/-- `format!("\"{}\"", num)`: the decimal rendering wrapped in quotes. -/
def quoteInt (z : ℤ) : List Char := '"' :: (formatInt z ++ ['"'])

/-- The joined quoted entries of one row, `nums.join(",")` in the source. -/
def rowBody (row : List ℤ) : List Char := joinSep [','] (row.map quoteInt)

/-- `format!("[{}]", nums.join(","))`: one formatted row. -/
def rowStr (row : List ℤ) : List Char := '[' :: (rowBody row ++ [']'])

/-- The source's `format_basis_as_json`: formatted rows joined by commas inside
an outer bracket pair. -/
def format_basis_as_json (basis : List (List ℤ)) : List Char :=
  '[' :: (joinSep [','] (basis.map rowStr) ++ [']'])

/-- Rust `str::trim_matches` with a character predicate: strip matching
characters from both ends. -/
def trimMatches (p : Char → Bool) (l : List Char) : List Char :=
  ((l.dropWhile p).reverse.dropWhile p).reverse

/-- Rust `str::split` on the non-empty pattern `s0 :: srest`: cut at the
leftmost occurrence, then continue after it (non-overlapping). -/
def splitOnSep (s0 : Char) (srest : List Char) : List Char → List Char → List (List Char)
  | acc, [] => [acc.reverse]
  | acc, c :: rest =>
    if (s0 :: srest).isPrefixOf (c :: rest) then
      acc.reverse :: splitOnSep s0 srest [] (rest.drop srest.length)
    else splitOnSep s0 srest (c :: acc) rest
termination_by _ l => l.length
decreasing_by
  all_goals simp
  omega

/-- Numeric value of a decimal digit character. -/
def charVal (c : Char) : ℕ := c.toNat - 48

/-- Decimal digit-string parsing: all characters must be digits. -/
def parseDigits (l : List Char) : Option ℕ :=
  if l ≠ [] ∧ l.all Char.isDigit then
    some (l.foldl (fun a c => a * 10 + charVal c) 0)
  else none

/-- `str::parse::<Integer>` of the `rug` crate: an optional sign followed by
decimal digits. -/
def parseInt (l : List Char) : Option ℤ :=
  match l with
  | [] => none
  | c :: ds =>
    if c = '-' then (parseDigits ds).map (fun n => -(n : ℤ))
    else if c = '+' then (parseDigits ds).map (fun n => (n : ℤ))
    else (parseDigits l).map (fun n => (n : ℤ))

/-- The per-entry parsing of `load_basis_from_string`:
`num_str.trim().trim_matches('"').parse::<Integer>()`. -/
def numParse (num_str : List Char) : Option ℤ :=
  parseInt (trimMatches (fun c => c == '"') (trimMatches Char.isWhitespace num_str))

/-- The per-row parsing of `load_basis_from_string`: strip stray brackets, then
split on `,` and parse each entry. -/
def rowParse (s : List Char) : Option (List ℤ) :=
  (splitOnSep ',' [] [] (trimMatches (fun c => c == '[' || c == ']') s)).mapM numParse

/-- The source's `load_basis_from_string`: trim, accept `[]` as the empty
basis, demand a `[[ ... ]]` shape, strip one bracket from each end, split rows
on `],[` and parse each row.  Parse failures (panics in the source) are
`none`. -/
def load_basis_from_string (data : List Char) : Option (List (List ℤ)) :=
  let trimmed := trimMatches Char.isWhitespace data
  if trimmed = ['[', ']'] then some []
  else if ¬ (['[', '['].isPrefixOf trimmed ∧ [']', ']'].isSuffixOf trimmed) then none
  else (splitOnSep ']' [',', '['] [] ((trimmed.drop 1).dropLast)).mapM rowParse

/-! ### The command-line surface relevant to BKZ configuration errors -/

/-- The diagnostic `main` prints to stderr when the BKZ block size is outside
`[2, n]`. -/
def bkzConfigError : List Char :=
  "Ошибка: Размер блока для BKZ должен быть между 2 и размером базиса.".toList

/-- Observable outcome of one program run: stdout lines, stderr lines, the
process exit status, and the final state of the basis held in memory. -/
structure CliOut where
  out : List (List Char)
  err : List (List Char)
  exitCode : ℕ
  basis : List (List ℤ)
deriving DecidableEq

/-- The `--bkz` path of `main` after the basis has been loaded: print `[]` and
return for an empty basis; otherwise, if `block_size > n || block_size < 2`,
print the diagnostic to stderr and return from `main` — a normal return, so
the process exits with status 0 — without reducing or printing the basis;
otherwise run `bkz` (with `delta = 75/100`) and print the result.  `none` only
when the embedded `bkz` runs out of fuel. -/
def runBkzCli (fuel : ℕ) (b : List (List ℤ)) (block_size : ℕ) : Option CliOut :=
  if b.isEmpty then some ⟨[['[', ']']], [], 0, b⟩
  else if block_size > b.length ∨ block_size < 2 then
    some ⟨[], [bkzConfigError], 0, b⟩
  else
    match bkz fuel (75 / 100) block_size b with
    | none => none
    | some r => some ⟨[format_basis_as_json r], [], 0, r⟩

/-- Counterexample to C9 as stated: with a 3-row basis and `--block-size 1`
the program prints the ConfigError diagnostic and produces no basis output,
but `main` merely returns, so the process exit status is 0 — not non-zero as
the claim demands. -/
theorem bkz_config_error_cx :
    (runBkzCli 0 [[(1:ℤ),0,0],[0,1,0],[0,0,1]] 1).map CliOut.exitCode = some 0 ∧
      ¬ (runBkzCli 0 [[(1:ℤ),0,0],[0,1,0],[0,0,1]] 1).map CliOut.err = some [] := by
  constructor
  · with_unfolding_all decide
  · with_unfolding_all decide

/-- C9 (amended): for every non-empty basis in BKZ mode, a block size outside
`[2, n]` is rejected before any reduction — a diagnostic goes to the error
stream, no basis output is printed and the basis is not mutated — but the
process terminates normally with exit status 0, not a non-zero status. -/
theorem bkz_config_error {fuel : ℕ} {b : List (List ℤ)} {bs : ℕ}
    (hne : b ≠ []) (hbs : bs < 2 ∨ b.length < bs) :
    runBkzCli fuel b bs = some ⟨[], [bkzConfigError], 0, b⟩ := by
  rw [runBkzCli, if_neg (by simpa using hne), if_pos (by omega)]

theorem bkz_config_error_witness :
    runBkzCli 0 [[(1:ℤ),0,0],[0,1,0],[0,0,1]] 1 =
      some ⟨[], [bkzConfigError], 0, [[(1:ℤ),0,0],[0,1,0],[0,0,1]]⟩ :=
  bkz_config_error (by simp) (Or.inl (by norm_num))

/-! ### Round-trip: character-level facts -/

theorem digitChar_props : ∀ d < 10, ((Nat.digitChar d).isDigit = true) ∧
    ((Nat.digitChar d == '[') = false) ∧ ((Nat.digitChar d == ']') = false) ∧
    ((Nat.digitChar d == ',') = false) ∧ ((Nat.digitChar d == '"') = false) ∧
    ((Nat.digitChar d).isWhitespace = false) ∧ (Nat.digitChar d ≠ '-') ∧
    (Nat.digitChar d ≠ '+') ∧ (charVal (Nat.digitChar d) = d) := by decide

theorem natDigits_shape {n : ℕ} :
    ∀ c ∈ natDigits n, ∃ d, d < 10 ∧ c = Nat.digitChar d := by
  intro c hc
  unfold natDigits at hc
  split at hc
  · rcases List.mem_singleton.mp hc with rfl
    exact ⟨0, by norm_num, rfl⟩
  · rw [List.mem_reverse] at hc
    obtain ⟨d, hd, rfl⟩ := List.mem_map.mp hc
    exact ⟨d, Nat.digits_lt_base (by norm_num) hd, rfl⟩

theorem natDigits_ne_nil (n : ℕ) : natDigits n ≠ [] := by
  unfold natDigits
  split
  · simp
  · simp only [ne_eq, List.reverse_eq_nil_iff, List.map_eq_nil]
    exact Nat.digits_ne_nil_iff_ne_zero.mpr (by omega)

/-- Every character of `formatInt` is a minus sign or a decimal digit. -/
theorem formatInt_shape {z : ℤ} :
    ∀ c ∈ formatInt z, c = '-' ∨ ∃ d, d < 10 ∧ c = Nat.digitChar d := by
  intro c hc
  unfold formatInt at hc
  split at hc
  · rcases List.mem_cons.mp hc with rfl | hc'
    · exact Or.inl rfl
    · exact Or.inr (natDigits_shape c hc')
  · exact Or.inr (natDigits_shape c hc)

theorem formatInt_ne_nil (z : ℤ) : formatInt z ≠ [] := by
  unfold formatInt
  split
  · simp
  · exact natDigits_ne_nil _

theorem formatInt_no_quote {z : ℤ} : ∀ c ∈ formatInt z, (c == '"') = false := by
  intro c hc
  rcases formatInt_shape c hc with rfl | ⟨d, hd, rfl⟩
  · decide
  · exact (digitChar_props d hd).2.2.2.2.1

theorem formatInt_no_ws {z : ℤ} : ∀ c ∈ formatInt z, c.isWhitespace = false := by
  intro c hc
  rcases formatInt_shape c hc with rfl | ⟨d, hd, rfl⟩
  · decide
  · exact (digitChar_props d hd).2.2.2.2.2.1

/-- Every character of a quoted entry is a quote, a minus sign or a digit; in
particular it is neither a bracket nor a comma nor whitespace. -/
theorem quoteInt_chars {z : ℤ} :
    ∀ c ∈ quoteInt z, ((c == '[') = false) ∧ ((c == ']') = false) ∧
      ((c == ',') = false) ∧ (c.isWhitespace = false) := by
  intro c hc
  unfold quoteInt at hc
  rcases List.mem_cons.mp hc with rfl | hc'
  · refine ⟨by decide, by decide, by decide, by decide⟩
  · rcases List.mem_append.mp hc' with hc'' | hc''
    · rcases formatInt_shape c hc'' with rfl | ⟨d, hd, rfl⟩
      · exact ⟨by decide, by decide, by decide, by decide⟩
      · obtain ⟨_, h1, h2, h3, _, h5, _⟩ := digitChar_props d hd
        exact ⟨h1, h2, h3, h5⟩
    · rcases List.mem_singleton.mp hc'' with rfl
      exact ⟨by decide, by decide, by decide, by decide⟩

theorem quoteInt_ne_nil (z : ℤ) : quoteInt z ≠ [] := by simp [quoteInt]

/-! ### Trimming lemmas -/

theorem dropWhile_eq_self_of_head {p : Char → Bool} :
    ∀ {l : List Char}, (∀ x, l.head? = some x → p x = false) → l.dropWhile p = l := by
  intro l h
  cases l with
  | nil => rfl
  | cons c l => rw [List.dropWhile_cons, h c rfl]; simp

theorem dropWhile_append_of_all {p : Char → Bool} :
    ∀ {pre l : List Char}, (∀ c ∈ pre, p c = true) →
      (pre ++ l).dropWhile p = l.dropWhile p := by
  intro pre
  induction pre with
  | nil => intro l _; rfl
  | cons c pre ih =>
    intro l h
    rw [List.cons_append, List.dropWhile_cons, h c (List.mem_cons_self c pre)]
    exact ih fun x hx => h x (List.mem_cons_of_mem c hx)

/-- Trimming strips a fully-matching prefix and suffix and leaves a middle
whose two ends do not match. -/
theorem trimMatches_wrap_all {p : Char → Bool} (pre suf l : List Char)
    (hpre : ∀ c ∈ pre, p c = true) (hsuf : ∀ c ∈ suf, p c = true)
    (hne : l ≠ [])
    (hh : ∀ x, l.head? = some x → p x = false)
    (hl : ∀ x, l.reverse.head? = some x → p x = false) :
    trimMatches p (pre ++ l ++ suf) = l := by
  unfold trimMatches
  rw [List.append_assoc, dropWhile_append_of_all hpre]
  have h1 : (l ++ suf).dropWhile p = l ++ suf := by
    cases l with
    | nil => exact absurd rfl hne
    | cons e mid => rw [List.cons_append, List.dropWhile_cons, hh e rfl]; simp
  rw [h1, List.reverse_append, dropWhile_append_of_all (fun c hc => hsuf c (List.mem_reverse.mp hc)),
    dropWhile_eq_self_of_head hl, List.reverse_reverse]

/-- Special case: nothing to trim. -/
theorem trimMatches_of_bounds {p : Char → Bool} {l : List Char} (hne : l ≠ [])
    (hh : ∀ x, l.head? = some x → p x = false)
    (hl : ∀ x, l.reverse.head? = some x → p x = false) :
    trimMatches p l = l := by
  have := trimMatches_wrap_all (p := p) [] [] l (by simp) (by simp) hne hh hl
  simpa using this

/-! ### joinSep and row-body facts -/

theorem mem_joinSep {sep : List Char} :
    ∀ {xs : List (List Char)} {c : Char}, c ∈ joinSep sep xs → c ∈ sep ∨ ∃ x ∈ xs, c ∈ x := by
  intro xs
  induction xs with
  | nil => intro c hc; exact absurd hc (List.not_mem_nil c)
  | cons x xs ih =>
    intro c hc
    cases xs with
    | nil => exact Or.inr ⟨x, List.mem_cons_self x [], by simpa [joinSep] using hc⟩
    | cons y ys =>
      rw [show joinSep sep (x :: y :: ys) = x ++ sep ++ joinSep sep (y :: ys) from rfl] at hc
      rcases List.mem_append.mp hc with hc' | hc'
      · rcases List.mem_append.mp hc' with hc'' | hc''
        · exact Or.inr ⟨x, List.mem_cons_self x _, hc''⟩
        · exact Or.inl hc''
      · rcases ih hc' with h | ⟨x', hx', hcx'⟩
        · exact Or.inl h
        · exact Or.inr ⟨x', List.mem_cons_of_mem x hx', hcx'⟩

theorem joinSep_ne_nil {sep : List Char} :
    ∀ {xs : List (List Char)}, xs ≠ [] → (∀ x ∈ xs, x ≠ []) → joinSep sep xs ≠ [] := by
  intro xs hne hall
  cases xs with
  | nil => exact absurd rfl hne
  | cons x xs =>
    cases xs with
    | nil => simpa [joinSep] using hall x (List.mem_cons_self x [])
    | cons y ys =>
      rw [show joinSep sep (x :: y :: ys) = x ++ sep ++ joinSep sep (y :: ys) from rfl]
      simp only [ne_eq, List.append_eq_nil]
      intro ⟨⟨hx, _⟩, _⟩
      exact hall x (List.mem_cons_self x _) hx

theorem joinSep_head? {sep : List Char} {x : List Char} {xs : List (List Char)}
    (hx : x ≠ []) : (joinSep sep (x :: xs)).head? = x.head? := by
  cases xs with
  | nil => rfl
  | cons y ys =>
    rw [show joinSep sep (x :: y :: ys) = x ++ sep ++ joinSep sep (y :: ys) from rfl]
    cases x with
    | nil => exact absurd rfl hx
    | cons e mid => rfl

theorem quoteInt_head (z : ℤ) : (quoteInt z).head? = some '"' := rfl

theorem quoteInt_last (z : ℤ) : (quoteInt z).reverse.head? = some '"' := by
  unfold quoteInt
  rw [List.reverse_cons, List.reverse_append]
  rfl

theorem rowBody_ne_nil {w : List ℤ} (hw : w ≠ []) : rowBody w ≠ [] := by
  unfold rowBody
  exact joinSep_ne_nil (by simpa using hw) (fun x hx => by
    obtain ⟨z, _, rfl⟩ := List.mem_map.mp hx
    exact quoteInt_ne_nil z)

theorem rowBody_head {w : List ℤ} (hw : w ≠ []) : (rowBody w).head? = some '"' := by
  unfold rowBody
  cases w with
  | nil => exact absurd rfl hw
  | cons z w' =>
    rw [List.map_cons, joinSep_head? (quoteInt_ne_nil z)]
    exact quoteInt_head z

theorem rowBody_last {w : List ℤ} (hw : w ≠ []) : (rowBody w).reverse.head? = some '"' := by
  unfold rowBody
  induction w with
  | nil => exact absurd rfl hw
  | cons z w' ih =>
    cases w' with
    | nil => exact quoteInt_last z
    | cons z' w'' =>
      rw [List.map_cons, List.map_cons,
        show joinSep [','] (quoteInt z :: quoteInt z' :: w''.map quoteInt) =
          quoteInt z ++ [','] ++ joinSep [','] (quoteInt z' :: w''.map quoteInt) from rfl,
        List.reverse_append]
      have hjn : joinSep [','] (quoteInt z' :: w''.map quoteInt) ≠ [] :=
        joinSep_ne_nil (by simp) (fun x hx => by
          rcases List.mem_cons.mp hx with rfl | hx'
          · exact quoteInt_ne_nil z'
          · obtain ⟨z'', _, rfl⟩ := List.mem_map.mp hx'
            exact quoteInt_ne_nil z'')
      have := ih (by simp)
      rw [List.map_cons] at this
      cases hj : (joinSep [','] (quoteInt z' :: w''.map quoteInt)).reverse with
      | nil => exact absurd (by simpa using hj) hjn
      | cons a as =>
        rw [hj] at this
        simpa using this

theorem rowBody_chars {w : List ℤ} :
    ∀ c ∈ rowBody w, ((c == '[') = false) ∧ ((c == ']') = false) := by
  intro c hc
  rcases mem_joinSep hc with hsep | ⟨x, hx, hcx⟩
  · rcases List.mem_singleton.mp hsep with rfl
    exact ⟨by decide, by decide⟩
  · obtain ⟨z, _, rfl⟩ := List.mem_map.mp hx
    exact ⟨(quoteInt_chars c hcx).1, (quoteInt_chars c hcx).2.1⟩

/-! ### splitOnSep lemmas -/

theorem splitOnSep_nil (s0 : Char) (srest acc : List Char) :
    splitOnSep s0 srest acc [] = [acc.reverse] := by
  rw [splitOnSep]

theorem splitOnSep_cons (s0 : Char) (srest acc : List Char) (c : Char) (rest : List Char) :
    splitOnSep s0 srest acc (c :: rest) =
      if (s0 :: srest).isPrefixOf (c :: rest) then
        acc.reverse :: splitOnSep s0 srest [] (rest.drop srest.length)
      else splitOnSep s0 srest (c :: acc) rest := by
  rw [splitOnSep]

theorem beq_symm_false {a b : Char} (h : (a == b) = false) : (b == a) = false := by
  simp only [beq_eq_false_iff_ne] at h ⊢
  exact fun hba => h hba.symm

theorem mem_of_head?_eq {α : Type _} {l : List α} {x : α} (h : l.head? = some x) : x ∈ l := by
  cases l with
  | nil => simp at h
  | cons a t =>
    simp only [List.head?_cons, Option.some.injEq] at h
    exact h ▸ List.mem_cons_self a t

theorem splitOnSep_skip (s0 : Char) (srest : List Char) :
    ∀ (pre acc rest : List Char), (∀ c ∈ pre, (s0 == c) = false) →
      splitOnSep s0 srest acc (pre ++ rest) =
        splitOnSep s0 srest (pre.reverse ++ acc) rest := by
  intro pre
  induction pre with
  | nil => intro acc rest _; simp
  | cons c pre ih =>
    intro acc rest h
    rw [List.cons_append, splitOnSep_cons]
    have hc : (s0 == c) = false := h c (List.mem_cons_self c pre)
    rw [if_neg (by simp [List.isPrefixOf, hc])]
    rw [ih (c :: acc) rest (fun x hx => h x (List.mem_cons_of_mem c hx))]
    congr 1
    simp

theorem splitOnSep_hit (acc rest : List Char) :
    splitOnSep ']' [',', '['] acc (']' :: ',' :: '[' :: rest) =
      acc.reverse :: splitOnSep ']' [',', '['] [] rest := by
  rw [splitOnSep_cons, if_pos (by simp [List.isPrefixOf])]
  rfl

theorem splitOnSep_lastBracket (acc : List Char) :
    splitOnSep ']' [',', '['] acc [']'] = [acc.reverse ++ [']']] := by
  rw [splitOnSep_cons, if_neg (by simp [List.isPrefixOf]), splitOnSep_nil]
  simp

theorem splitOnSep_comma :
    ∀ (parts : List (List Char)) (x acc : List Char),
      (∀ part ∈ parts, ∀ c ∈ part, (',' == c) = false) →
      (∀ c ∈ x, (',' == c) = false) →
      splitOnSep ',' [] acc (joinSep [','] (x :: parts)) = (acc.reverse ++ x) :: parts := by
  intro parts
  induction parts with
  | nil =>
    intro x acc _ hx
    have h := splitOnSep_skip ',' [] x acc [] hx
    rw [List.append_nil] at h
    rw [show joinSep [','] [x] = x from rfl, h, splitOnSep_nil]
    simp
  | cons y ys ih =>
    intro x acc hparts hx
    rw [show joinSep [','] (x :: y :: ys) = x ++ ([','] ++ joinSep [','] (y :: ys)) from by
      rw [show joinSep [','] (x :: y :: ys) = x ++ [','] ++ joinSep [','] (y :: ys) from rfl,
        List.append_assoc]]
    rw [splitOnSep_skip ',' [] x acc _ hx]
    simp only [List.singleton_append]
    rw [splitOnSep_cons, if_pos (by simp [List.isPrefixOf])]
    have := ih y [] (fun p hp => hparts p (List.mem_cons_of_mem y hp))
      (hparts y (List.mem_cons_self y ys))
    simp only [List.reverse_nil, List.nil_append] at this
    rw [show (List.drop [].length (joinSep [','] (y :: ys))) = joinSep [','] (y :: ys) from rfl,
      this]
    simp

/-! ### Integer round-trip -/

theorem foldl_digits :
    ∀ (L : List ℕ), (∀ d ∈ L, d < 10) →
      ((L.map Nat.digitChar).reverse).foldl (fun a c => a * 10 + charVal c) 0 =
        Nat.ofDigits 10 L := by
  intro L
  induction L with
  | nil => intro _; rfl
  | cons d T ih =>
    intro h
    rw [List.map_cons, List.reverse_cons, List.foldl_append]
    simp only [List.foldl_cons, List.foldl_nil]
    rw [ih (fun x hx => h x (List.mem_cons_of_mem d hx)),
      (digitChar_props d (h d (List.mem_cons_self d T))).2.2.2.2.2.2.2.2,
      Nat.ofDigits_cons]
    ring

theorem parseDigits_natDigits (n : ℕ) : parseDigits (natDigits n) = some n := by
  have hall : (natDigits n).all Char.isDigit = true := by
    rw [List.all_eq_true]
    intro c hc
    obtain ⟨d, hd, rfl⟩ := natDigits_shape c hc
    exact (digitChar_props d hd).1
  rw [parseDigits, if_pos ⟨natDigits_ne_nil n, hall⟩]
  congr 1
  unfold natDigits
  split
  next h => simp [charVal, h]
  next h =>
    rw [foldl_digits _ (fun d hd => Nat.digits_lt_base (by norm_num) hd),
      Nat.ofDigits_digits]

theorem parseInt_cons (c : Char) (ds : List Char) :
    parseInt (c :: ds) =
      if c = '-' then (parseDigits ds).map (fun n => -(n : ℤ))
      else if c = '+' then (parseDigits ds).map (fun n => (n : ℤ))
      else (parseDigits (c :: ds)).map (fun n => (n : ℤ)) := rfl

theorem parseInt_formatInt (z : ℤ) : parseInt (formatInt z) = some z := by
  unfold formatInt
  split
  next hneg =>
    rw [parseInt_cons, if_pos rfl, parseDigits_natDigits]
    have habs : ((z.natAbs : ℤ)) = -z := Int.ofNat_natAbs_of_nonpos (le_of_lt hneg)
    simp [habs]
  next hpos =>
    cases hnd : natDigits z.natAbs with
    | nil => exact absurd hnd (natDigits_ne_nil _)
    | cons c ds =>
      obtain ⟨d, hd, rfl⟩ := natDigits_shape c (hnd ▸ List.mem_cons_self c ds)
      rw [parseInt_cons, if_neg (digitChar_props d hd).2.2.2.2.2.2.1,
        if_neg (digitChar_props d hd).2.2.2.2.2.2.2.1]
      rw [← hnd, parseDigits_natDigits]
      have habs : ((z.natAbs : ℤ)) = z := Int.natAbs_of_nonneg (not_lt.mp hpos)
      simp [habs]

theorem numParse_quoteInt (z : ℤ) : numParse (quoteInt z) = some z := by
  unfold numParse
  have h1 : trimMatches Char.isWhitespace (quoteInt z) = quoteInt z :=
    trimMatches_of_bounds (quoteInt_ne_nil z)
      (fun x hx => by
        rw [quoteInt_head] at hx
        simp only [Option.some.injEq] at hx
        subst hx; decide)
      (fun x hx => by
        rw [quoteInt_last] at hx
        simp only [Option.some.injEq] at hx
        subst hx; decide)
  have h2 : trimMatches (fun c => c == '"') (quoteInt z) = formatInt z := by
    have h := trimMatches_wrap_all (p := fun c => c == '"') ['"'] ['"'] (formatInt z)
      (by intro c hc; rcases List.mem_singleton.mp hc with rfl; decide)
      (by intro c hc; rcases List.mem_singleton.mp hc with rfl; decide)
      (formatInt_ne_nil z)
      (fun x hx => formatInt_no_quote x (mem_of_head?_eq hx))
      (fun x hx => formatInt_no_quote x (List.mem_reverse.mp (mem_of_head?_eq hx)))
    have hq : quoteInt z = ['"'] ++ formatInt z ++ ['"'] := rfl
    rw [hq, h]
  rw [h1, h2, parseInt_formatInt]

theorem mapM_numParse (w : List ℤ) : (w.map quoteInt).mapM numParse = some w := by
  induction w with
  | nil => rfl
  | cons z w ih =>
    rw [List.map_cons, List.mapM_cons, numParse_quoteInt z, ih]
    rfl

theorem rowParse_core {w : List ℤ} (hw : w ≠ []) :
    (splitOnSep ',' [] [] (rowBody w)).mapM numParse = some w := by
  unfold rowBody
  cases w with
  | nil => exact absurd rfl hw
  | cons z w' =>
    rw [List.map_cons,
      splitOnSep_comma (w'.map quoteInt) (quoteInt z) []
        (fun part hp c hc => by
          obtain ⟨z', _, rfl⟩ := List.mem_map.mp hp
          exact beq_symm_false (quoteInt_chars c hc).2.2.1)
        (fun c hc => beq_symm_false (quoteInt_chars c hc).2.2.1)]
    simp only [List.reverse_nil, List.nil_append]
    rw [show (quoteInt z :: w'.map quoteInt) = (z :: w').map quoteInt from rfl]
    exact mapM_numParse (z :: w')

/-! ### Row-level split of the formatted basis -/

/-- The formatted rows joined by `,`, with the leading `[` of the first row
stripped — the shape the `],[` splitter walks over. -/
def tailJoin : List (List ℤ) → List Char
  | [] => []
  | [w] => rowBody w ++ [']']
  | w :: ws => rowBody w ++ (']' :: ',' :: '[' :: tailJoin ws)

theorem joinSep_rowStr :
    ∀ (ws : List (List ℤ)), ws ≠ [] →
      joinSep [','] (ws.map rowStr) = '[' :: tailJoin ws := by
  intro ws
  induction ws with
  | nil => intro h; exact absurd rfl h
  | cons w ws ih =>
    intro _
    cases ws with
    | nil => rfl
    | cons w' ws' =>
      rw [List.map_cons,
        show joinSep [','] (rowStr w :: (w' :: ws').map rowStr) =
          rowStr w ++ [','] ++ joinSep [','] ((w' :: ws').map rowStr) from rfl,
        ih (by simp),
        show tailJoin (w :: w' :: ws') = rowBody w ++ (']' :: ',' :: '[' :: tailJoin (w' :: ws'))
          from rfl,
        rowStr]
      simp

theorem rowBody_no_rbracket {w : List ℤ} : ∀ c ∈ rowBody w, (']' == c) = false :=
  fun c hc => beq_symm_false (rowBody_chars c hc).2

theorem split_tailJoin_single (w : List ℤ) (acc : List Char) :
    splitOnSep ']' [',', '['] acc (tailJoin [w]) = [acc.reverse ++ rowBody w ++ [']']] := by
  rw [show tailJoin [w] = rowBody w ++ [']'] from rfl,
    splitOnSep_skip ']' [',', '['] (rowBody w) acc [']'] rowBody_no_rbracket,
    splitOnSep_lastBracket]
  simp

theorem split_tailJoin_cons (w : List ℤ) (ws : List (List ℤ)) (acc : List Char)
    (hne : ws ≠ []) :
    splitOnSep ']' [',', '['] acc (tailJoin (w :: ws)) =
      (acc.reverse ++ rowBody w) :: splitOnSep ']' [',', '['] [] (tailJoin ws) := by
  have hshape : tailJoin (w :: ws) = rowBody w ++ (']' :: ',' :: '[' :: tailJoin ws) := by
    cases ws with
    | nil => exact absurd rfl hne
    | cons w' ws' => rfl
  rw [hshape, splitOnSep_skip ']' [',', '['] (rowBody w) acc _ rowBody_no_rbracket,
    splitOnSep_hit]
  simp

/-- The bracket predicate used by the row trimmer. -/
theorem mapM_rowParse_chunks :
    ∀ (ws : List (List ℤ)) (acc : List Char), (∀ w ∈ ws, w ≠ []) → ws ≠ [] →
      (∀ c ∈ acc, (c == '[' || c == ']') = true) →
      (splitOnSep ']' [',', '['] acc (tailJoin ws)).mapM rowParse = some ws := by
  intro ws
  induction ws with
  | nil => intro acc _ h _; exact absurd rfl h
  | cons w ws ih =>
    intro acc hrows _ hacc
    have hw : w ≠ [] := hrows w (List.mem_cons_self w ws)
    have htrim : ∀ suf : List Char, (∀ c ∈ suf, (c == '[' || c == ']') = true) →
        trimMatches (fun c => c == '[' || c == ']') (acc.reverse ++ rowBody w ++ suf) =
          rowBody w := by
      intro suf hsuf
      exact trimMatches_wrap_all acc.reverse suf (rowBody w)
        (fun c hc => hacc c (List.mem_reverse.mp hc)) hsuf (rowBody_ne_nil hw)
        (fun x hx => by
          rw [rowBody_head hw] at hx
          simp only [Option.some.injEq] at hx
          subst hx; decide)
        (fun x hx => by
          rw [rowBody_last hw] at hx
          simp only [Option.some.injEq] at hx
          subst hx; decide)
    cases ws with
    | nil =>
      rw [split_tailJoin_single, List.mapM_cons, List.mapM_nil]
      rw [rowParse, htrim [']'] (by intro c hc; rcases List.mem_singleton.mp hc with rfl; decide),
        rowParse_core hw]
      rfl
    | cons w' ws' =>
      rw [split_tailJoin_cons w (w' :: ws') acc (by simp), List.mapM_cons]
      rw [rowParse]
      have h0 : trimMatches (fun c => c == '[' || c == ']') (acc.reverse ++ rowBody w) =
          rowBody w := by
        have := htrim [] (by intro c hc; exact absurd hc (List.not_mem_nil c))
        simpa using this
      rw [h0, rowParse_core hw,
        ih [] (fun x hx => hrows x (List.mem_cons_of_mem w hx)) (by simp)
          (fun c hc => absurd hc (List.not_mem_nil c))]
      rfl

theorem format_shape (B : List (List ℤ)) (hne : B ≠ []) :
    format_basis_as_json B = '[' :: (('[' :: tailJoin B) ++ [']']) := by
  unfold format_basis_as_json
  rw [joinSep_rowStr B hne]

theorem tailJoin_concat :
    ∀ (B : List (List ℤ)), B ≠ [] → ∃ T, tailJoin B = T ++ [']'] := by
  intro B
  induction B with
  | nil => intro h; exact absurd rfl h
  | cons w ws ih =>
    intro _
    cases ws with
    | nil => exact ⟨rowBody w, rfl⟩
    | cons w' ws' =>
      obtain ⟨T', hT'⟩ := ih (by simp)
      refine ⟨rowBody w ++ (']' :: ',' :: '[' :: T'), ?_⟩
      rw [show tailJoin (w :: w' :: ws') = rowBody w ++ (']' :: ',' :: '[' :: tailJoin (w' :: ws'))
        from rfl, hT']
      simp

/-- C10 (amended): serializing any basis whose rows are all non-empty (the
empty basis included) and re-parsing the result yields the identical matrix. -/
theorem format_parse_roundtrip (B : List (List ℤ)) (hrows : ∀ w ∈ B, w ≠ []) :
    load_basis_from_string (format_basis_as_json B) = some B := by
  cases B with
  | nil => with_unfolding_all decide
  | cons w ws =>
    have hne : (w :: ws : List (List ℤ)) ≠ [] := by simp
    have hshape := format_shape (w :: ws) hne
    have htrim : trimMatches Char.isWhitespace (format_basis_as_json (w :: ws)) =
        format_basis_as_json (w :: ws) := by
      refine trimMatches_of_bounds (by rw [hshape]; simp) ?_ ?_
      · intro x hx
        rw [hshape] at hx
        simp only [List.head?_cons, Option.some.injEq] at hx
        subst hx; decide
      · intro x hx
        rw [hshape, List.head?_reverse] at hx
        rw [show ('[' :: (('[' :: tailJoin (w :: ws)) ++ [']'])) =
          ('[' :: '[' :: tailJoin (w :: ws)) ++ [']'] from by simp] at hx
        rw [List.getLast?_concat] at hx
        simp only [Option.some.injEq] at hx
        subst hx; decide
    rw [load_basis_from_string]
    simp only [htrim]
    rw [if_neg (by rw [hshape]; simp)]
    obtain ⟨T, hT⟩ := tailJoin_concat (w :: ws) hne
    have hguard : (['[', '['].isPrefixOf (format_basis_as_json (w :: ws)) ∧
        ([']', ']'].isSuffixOf (format_basis_as_json (w :: ws)))) := by
      constructor
      · rw [hshape]
        simp [List.isPrefixOf]
      · rw [hshape, hT, List.isSuffixOf]
        rw [show ('[' :: (('[' :: (T ++ [']'])) ++ [']'])) =
          ('[' :: '[' :: T) ++ [']', ']'] from by simp]
        rw [List.reverse_append]
        simp [List.isPrefixOf]
    rw [if_neg (not_not_intro hguard)]
    have hinner : ((format_basis_as_json (w :: ws)).drop 1).dropLast =
        '[' :: tailJoin (w :: ws) := by
      rw [hshape]
      rw [show (('[' :: (('[' :: tailJoin (w :: ws)) ++ [']'])).drop 1) =
        ('[' :: tailJoin (w :: ws)) ++ [']'] from rfl]
      exact List.dropLast_concat
    rw [hinner,
      show ('[' :: tailJoin (w :: ws)) = ['['] ++ tailJoin (w :: ws) from rfl,
      splitOnSep_skip ']' [',', '['] ['['] [] (tailJoin (w :: ws))
        (by intro c hc; rcases List.mem_singleton.mp hc with rfl; decide)]
    exact mapM_rowParse_chunks (w :: ws) _ hrows hne
      (by intro c hc; simp at hc; subst hc; decide)

/-- Counterexample to C10 as stated: a basis containing an empty row formats to
`[[]]`, and re-parsing that string fails (the source's `parse` panics on the
empty token), so the round trip does not reproduce the matrix. -/
theorem format_parse_roundtrip_cx :
    load_basis_from_string (format_basis_as_json [([] : List ℤ)]) = none ∧
      ¬ load_basis_from_string (format_basis_as_json [([] : List ℤ)]) =
          some [([] : List ℤ)] := by
  constructor
  · with_unfolding_all decide
  · with_unfolding_all decide

theorem format_parse_roundtrip_witness :
    load_basis_from_string (format_basis_as_json [[(12:ℤ),-3],[4,5]]) =
      some [[(12:ℤ),-3],[4,5]] :=
  format_parse_roundtrip [[(12:ℤ),-3],[4,5]] (by simp)
